import Mathlib

/-!
Verification of the graph kernels in `pyamg/amg_core/graph.h`.

The C++ kernels are shallowly embedded: CSR arrays become `List ℕ`,
integer vertex-state arrays become `List ℤ`, random weights become
`List ℚ`, array reads become `List.getD` (default `0`), array writes
become `List.set` (out-of-range writes, undefined behaviour in C++,
are no-ops here), `for` loops become folds over `List.range`, and
`while` loops become fuel-indexed recursion.  The MIS kernels are
additionally instrumented with a ghost list `promoted` recording the
vertices promoted during the call; the `x`/count outputs are
unaffected by the instrumentation.
-/

set_option maxRecDepth 100000

namespace PyamgGraph

/-! ## List access helpers -/

theorem getD_set_self {α : Type} (l : List α) (i : ℕ) (a d : α) (h : i < l.length) :
    (l.set i a).getD i d = a := by
  simp [List.getD_eq_getElem?_getD, List.getElem?_set, h]

theorem getD_set_ne {α : Type} (l : List α) {i j : ℕ} (a d : α) (h : i ≠ j) :
    (l.set i a).getD j d = l.getD j d := by
  simp [List.getD_eq_getElem?_getD, List.getElem?_set, h]

theorem getD_set_cases {α : Type} (l : List α) (i j : ℕ) (a d : α) :
    (l.set i a).getD j d = a ∨ (l.set i a).getD j d = l.getD j d := by
  by_cases hij : i = j
  · subst hij
    by_cases h : i < l.length
    · exact Or.inl (getD_set_self l i a d h)
    · right
      rw [List.set_eq_of_length_le (Nat.le_of_not_lt h)]
  · exact Or.inr (getD_set_ne l a d hij)

theorem getD_set_changed {α : Type} (l : List α) {i j : ℕ} {a d : α}
    (h : (l.set i a).getD j d ≠ l.getD j d) :
    j = i ∧ (l.set i a).getD j d = a := by
  by_cases hij : i = j
  · subst hij
    refine ⟨rfl, ?_⟩
    by_cases hlt : i < l.length
    · exact getD_set_self l i a d hlt
    · exact absurd (by rw [List.set_eq_of_length_le (Nat.le_of_not_lt hlt)]) h
  · exact absurd (getD_set_ne l a d hij) h

/-! ## CSR adjacency -/

/-- The slice `Aj[Ap[i] .. Ap[i+1])` of the CSR index array: the list of
neighbours of vertex `i`, in stored order. -/
def csrRow (Ap Aj : List ℕ) (i : ℕ) : List ℕ :=
  (Aj.drop (Ap.getD i 0)).take (Ap.getD (i + 1) 0 - Ap.getD i 0)

/-! ## `maximal_independent_set_serial` (graph.h:35-61) -/

/-- State carried by the MIS kernels: the vertex-state array `x`, the
returned count `N`, and the ghost list of vertices promoted so far. -/
structure MISState where
  x : List ℤ
  count : ℕ
  promoted : List ℕ
deriving Repr, DecidableEq

/-- The inner demotion loop of the MIS kernels: every `j` in `row`
with `x[j] == active` is set to `F` (graph.h:51-56, graph.h:140-144). -/
def misDemote (activeV F : ℤ) (row : List ℕ) (x : List ℤ) : List ℤ :=
  row.foldl (fun xs j => if xs.getD j 0 = activeV then xs.set j F else xs) x

/-- One iteration of the vertex loop of `maximal_independent_set_serial`
(graph.h:45-58): skip `i` unless `x[i] == active`; otherwise set
`x[i] = C`, bump the count, and demote all active neighbours to `F`. -/
def misSerialStep (Ap Aj : List ℕ) (activeV C F : ℤ) (s : MISState) (i : ℕ) : MISState :=
  if s.x.getD i 0 ≠ activeV then s
  else { x := misDemote activeV F (csrRow Ap Aj i) (s.x.set i C),
         count := s.count + 1,
         promoted := s.promoted ++ [i] }

/-- `maximal_independent_set_serial` (graph.h:35-61), instrumented with
the ghost `promoted` list. -/
def maximal_independent_set_serial (num_rows : ℕ) (Ap Aj : List ℕ)
    (activeV C F : ℤ) (x : List ℤ) : MISState :=
  (List.range num_rows).foldl (misSerialStep Ap Aj activeV C F) ⟨x, 0, []⟩

/-! ## `maximal_independent_set_parallel` (graph.h:91-156) -/

/-- The neighbour scan of one Luby round (graph.h:121-137): walking the
row in stored order, return `some true` if the first break is a
`C`-neighbour (demote `i`), `some false` if it is an outranking active
neighbour (`i` stays active), and `none` if the scan reaches the end of
the row (promote `i`). -/
def lubyScan (activeV C : ℤ) (x : List ℤ) (y : List ℚ) (i : ℕ) : List ℕ → Option Bool
  | [] => none
  | j :: rest =>
    if x.getD j 0 = C then some true
    else if x.getD j 0 = activeV ∧
        (y.getD j 0 > y.getD i 0 ∨ (y.getD j 0 = y.getD i 0 ∧ j > i)) then some false
    else lubyScan activeV C x y i rest

/-- State carried by `maximal_independent_set_parallel`: vertex states,
count, ghost promoted list, the `active_nodes` flag and the round
counter `num_iters`. -/
structure MISPState where
  x : List ℤ
  count : ℕ
  promoted : List ℕ
  activeFlag : Bool
  iters : ℤ
deriving Repr, DecidableEq

/-- One iteration of the vertex loop of a Luby round (graph.h:111-150). -/
def misParallelStep (Ap Aj : List ℕ) (activeV C F : ℤ) (y : List ℚ)
    (s : MISPState) (i : ℕ) : MISPState :=
  if s.x.getD i 0 ≠ activeV then s
  else
    match lubyScan activeV C s.x y i (csrRow Ap Aj i) with
    | none =>
        { s with x := (misDemote activeV F (csrRow Ap Aj i) s.x).set i C,
                 count := s.count + 1,
                 promoted := s.promoted ++ [i] }
    | some true => { s with x := s.x.set i F, activeFlag := true }
    | some false => { s with activeFlag := true }

/-- One full Luby round: the vertex loop over `0 .. num_rows`. -/
def misParallelRound (num_rows : ℕ) (Ap Aj : List ℕ) (activeV C F : ℤ)
    (y : List ℚ) (s : MISPState) : MISPState :=
  (List.range num_rows).foldl (misParallelStep Ap Aj activeV C F y) s

/-- The outer `while` loop of `maximal_independent_set_parallel`
(graph.h:106-151), indexed by fuel.  The loop guard is checked before
the fuel so that a quiescent state is returned unchanged for any fuel. -/
def misParallelLoop (num_rows : ℕ) (Ap Aj : List ℕ) (activeV C F : ℤ)
    (y : List ℚ) (max_iters : ℤ) (fuel : ℕ) (s : MISPState) : MISPState :=
  if s.activeFlag = true ∧ (max_iters = -1 ∨ s.iters < max_iters) then
    match fuel with
    | 0 => s
    | fuel' + 1 =>
        misParallelLoop num_rows Ap Aj activeV C F y max_iters fuel'
          (misParallelRound num_rows Ap Aj activeV C F y
            { s with activeFlag := false, iters := s.iters + 1 })
  else s

/-- `maximal_independent_set_parallel` (graph.h:91-156), instrumented
with the ghost `promoted` list and a fuel bound on the `while` loop. -/
def maximal_independent_set_parallel (num_rows : ℕ) (Ap Aj : List ℕ)
    (activeV C F : ℤ) (x : List ℤ) (y : List ℚ) (max_iters : ℤ)
    (fuel : ℕ) : MISPState :=
  misParallelLoop num_rows Ap Aj activeV C F y max_iters fuel
    ⟨x, 0, [], true, 0⟩

/-! ## MIS independence machinery -/

theorem misDemote_length (activeV F : ℤ) (row : List ℕ) : ∀ x : List ℤ,
    (misDemote activeV F row x).length = x.length := by
  induction row with
  | nil => intro x; rfl
  | cons r t ih =>
      intro x
      have hrw : misDemote activeV F (r :: t) x
          = misDemote activeV F t (if x.getD r 0 = activeV then x.set r F else x) := rfl
      rw [hrw, ih]
      split <;> simp

theorem misDemote_notActive_of (activeV F : ℤ) (hF : F ≠ activeV) (row : List ℕ) :
    ∀ (x : List ℤ) (j : ℕ), x.getD j 0 ≠ activeV →
      (misDemote activeV F row x).getD j 0 ≠ activeV := by
  induction row with
  | nil => intro x j h; exact h
  | cons r t ih =>
      intro x j h
      have hrw : misDemote activeV F (r :: t) x
          = misDemote activeV F t (if x.getD r 0 = activeV then x.set r F else x) := rfl
      rw [hrw]
      apply ih
      split
      · rcases getD_set_cases x r j F 0 with hc | hc <;> rw [hc]
        · exact hF
        · exact h
      · exact h

theorem misDemote_row_notActive (activeV F : ℤ) (hF : F ≠ activeV) (row : List ℕ) :
    ∀ (x : List ℤ), ∀ j ∈ row, j < x.length →
      (misDemote activeV F row x).getD j 0 ≠ activeV := by
  induction row with
  | nil => intro x j hj; exact absurd hj (List.not_mem_nil j)
  | cons r t ih =>
      intro x j hj hlen
      have hrw : misDemote activeV F (r :: t) x
          = misDemote activeV F t (if x.getD r 0 = activeV then x.set r F else x) := rfl
      rw [hrw]
      by_cases hr : x.getD r 0 = activeV
      · rw [if_pos hr]
        rcases List.mem_cons.mp hj with rfl | hjt
        · exact misDemote_notActive_of activeV F hF t _ j
            (by rw [getD_set_self x j F 0 hlen]; exact hF)
        · exact ih _ j hjt (by simpa using hlen)
      · rw [if_neg hr]
        rcases List.mem_cons.mp hj with rfl | hjt
        · exact misDemote_notActive_of activeV F hF t _ j hr
        · exact ih _ j hjt hlen

/-- The invariant maintained by both MIS kernels: the ghost `promoted`
list names in-range vertices, every neighbour of a promoted vertex is
non-active, and the promoted vertices are pairwise non-adjacent. -/
def MISInv (n : ℕ) (Ap Aj : List ℕ) (activeV : ℤ) (x : List ℤ) (prom : List ℕ) : Prop :=
  x.length = n ∧
  (∀ p ∈ prom, p < n) ∧
  (∀ p ∈ prom, ∀ j ∈ csrRow Ap Aj p, x.getD j 0 ≠ activeV) ∧
  (∀ p ∈ prom, ∀ q ∈ prom, p ≠ q → q ∉ csrRow Ap Aj p)

theorem MISInv_promoteGeneric {n : ℕ} {Ap Aj : List ℕ} {activeV : ℤ}
    {x x' : List ℤ} {prom : List ℕ}
    (hsym : ∀ i < n, ∀ j < n, j ∈ csrRow Ap Aj i → i ∈ csrRow Ap Aj j)
    (hinv : MISInv n Ap Aj activeV x prom)
    {i : ℕ} (hi : i < n) (hact : x.getD i 0 = activeV)
    (hlen' : x'.length = n)
    (hrow : ∀ j ∈ csrRow Ap Aj i, x'.getD j 0 ≠ activeV)
    (hpres : ∀ j, x.getD j 0 ≠ activeV → x'.getD j 0 ≠ activeV) :
    MISInv n Ap Aj activeV x' (prom ++ [i]) := by
  obtain ⟨hlen, hbnd, hA, hB⟩ := hinv
  have hiNotInRow : ∀ p ∈ prom, i ∉ csrRow Ap Aj p := fun p hp hmem =>
    hA p hp i hmem hact
  refine ⟨hlen', ?_, ?_, ?_⟩
  · intro p hp
    rcases List.mem_append.mp hp with h | h
    · exact hbnd p h
    · rw [List.mem_singleton.mp h]; exact hi
  · intro p hp j hj
    rcases List.mem_append.mp hp with h | h
    · exact hpres j (hA p h j hj)
    · rw [List.mem_singleton.mp h] at hj
      exact hrow j hj
  · intro p hp q hq hpq
    rcases List.mem_append.mp hp with hpo | hpi <;>
      rcases List.mem_append.mp hq with hqo | hqi
    · exact hB p hpo q hqo hpq
    · rw [List.mem_singleton.mp hqi]
      exact hiNotInRow p hpo
    · rw [List.mem_singleton.mp hpi]
      intro hmem
      exact hiNotInRow q hqo (hsym i hi q (hbnd q hqo) hmem)
    · exact absurd (List.mem_singleton.mp hpi ▸ List.mem_singleton.mp hqi ▸ rfl) hpq

theorem MISInv_promoteSerial {n : ℕ} {Ap Aj : List ℕ} {activeV C F : ℤ}
    {x : List ℤ} {prom : List ℕ}
    (hC : C ≠ activeV) (hF : F ≠ activeV)
    (hAj : ∀ i < n, ∀ j ∈ csrRow Ap Aj i, j < n)
    (hsym : ∀ i < n, ∀ j < n, j ∈ csrRow Ap Aj i → i ∈ csrRow Ap Aj j)
    (hinv : MISInv n Ap Aj activeV x prom)
    {i : ℕ} (hi : i < n) (hact : x.getD i 0 = activeV) :
    MISInv n Ap Aj activeV
      (misDemote activeV F (csrRow Ap Aj i) (x.set i C)) (prom ++ [i]) := by
  have hlen : x.length = n := hinv.1
  refine MISInv_promoteGeneric hsym hinv hi hact ?_ ?_ ?_
  · rw [misDemote_length, List.length_set, hlen]
  · intro j hj
    exact misDemote_row_notActive activeV F hF _ _ j hj
      (by rw [List.length_set, hlen]; exact hAj i hi j hj)
  · intro j hjne
    have hji : j ≠ i := fun he => hjne (he ▸ hact)
    apply misDemote_notActive_of activeV F hF
    rw [getD_set_ne x _ _ (fun he => hji he.symm)]
    exact hjne

theorem MISInv_promoteParallel {n : ℕ} {Ap Aj : List ℕ} {activeV C F : ℤ}
    {x : List ℤ} {prom : List ℕ}
    (hC : C ≠ activeV) (hF : F ≠ activeV)
    (hAj : ∀ i < n, ∀ j ∈ csrRow Ap Aj i, j < n)
    (hsym : ∀ i < n, ∀ j < n, j ∈ csrRow Ap Aj i → i ∈ csrRow Ap Aj j)
    (hinv : MISInv n Ap Aj activeV x prom)
    {i : ℕ} (hi : i < n) (hact : x.getD i 0 = activeV) :
    MISInv n Ap Aj activeV
      ((misDemote activeV F (csrRow Ap Aj i) x).set i C) (prom ++ [i]) := by
  have hlen : x.length = n := hinv.1
  have hdlen : (misDemote activeV F (csrRow Ap Aj i) x).length = n := by
    rw [misDemote_length, hlen]
  refine MISInv_promoteGeneric hsym hinv hi hact ?_ ?_ ?_
  · rw [List.length_set, hdlen]
  · intro j hj
    by_cases hji : j = i
    · subst hji
      rw [getD_set_self _ _ _ _ (by rw [hdlen]; exact hi)]
      exact hC
    · rw [getD_set_ne _ _ _ (fun he => hji he.symm)]
      exact misDemote_row_notActive activeV F hF _ _ j hj
        (by rw [hlen]; exact hAj i hi j hj)
  · intro j hjne
    have hji : j ≠ i := fun he => hjne (he ▸ hact)
    rw [getD_set_ne _ _ _ (fun he => hji he.symm)]
    exact misDemote_notActive_of activeV F hF _ _ j hjne

theorem MISInv_setF {n : ℕ} {Ap Aj : List ℕ} {activeV F : ℤ}
    {x : List ℤ} {prom : List ℕ} (hF : F ≠ activeV)
    (hinv : MISInv n Ap Aj activeV x prom) (i : ℕ) :
    MISInv n Ap Aj activeV (x.set i F) prom := by
  obtain ⟨hlen, hbnd, hA, hB⟩ := hinv
  refine ⟨by rw [List.length_set]; exact hlen, hbnd, ?_, hB⟩
  intro p hp j hj
  rcases getD_set_cases x i j F 0 with hc | hc <;> rw [hc]
  · exact hF
  · exact hA p hp j hj

theorem misSerialStep_inv {n : ℕ} {Ap Aj : List ℕ} {activeV C F : ℤ}
    (hC : C ≠ activeV) (hF : F ≠ activeV)
    (hAj : ∀ i < n, ∀ j ∈ csrRow Ap Aj i, j < n)
    (hsym : ∀ i < n, ∀ j < n, j ∈ csrRow Ap Aj i → i ∈ csrRow Ap Aj j)
    {s : MISState} {i : ℕ} (hi : i < n)
    (hinv : MISInv n Ap Aj activeV s.x s.promoted) :
    MISInv n Ap Aj activeV (misSerialStep Ap Aj activeV C F s i).x
      (misSerialStep Ap Aj activeV C F s i).promoted := by
  unfold misSerialStep
  by_cases h : s.x.getD i 0 ≠ activeV
  · rw [if_pos h]; exact hinv
  · rw [if_neg h]
    exact MISInv_promoteSerial hC hF hAj hsym hinv hi (not_ne_iff.mp h)

theorem misSerial_fold_inv {n : ℕ} {Ap Aj : List ℕ} {activeV C F : ℤ}
    (hC : C ≠ activeV) (hF : F ≠ activeV)
    (hAj : ∀ i < n, ∀ j ∈ csrRow Ap Aj i, j < n)
    (hsym : ∀ i < n, ∀ j < n, j ∈ csrRow Ap Aj i → i ∈ csrRow Ap Aj j) :
    ∀ (l : List ℕ), (∀ i ∈ l, i < n) → ∀ s : MISState,
      MISInv n Ap Aj activeV s.x s.promoted →
      MISInv n Ap Aj activeV
        (l.foldl (misSerialStep Ap Aj activeV C F) s).x
        (l.foldl (misSerialStep Ap Aj activeV C F) s).promoted := by
  intro l
  induction l with
  | nil => intro _ s hs; exact hs
  | cons i t ih =>
      intro hl s hs
      rw [List.foldl_cons]
      exact ih (fun m hm => hl m (List.mem_cons_of_mem i hm)) _
        (misSerialStep_inv hC hF hAj hsym (hl i (List.mem_cons_self i t)) hs)

theorem misParallelStep_inv {n : ℕ} {Ap Aj : List ℕ} {activeV C F : ℤ} {y : List ℚ}
    (hC : C ≠ activeV) (hF : F ≠ activeV)
    (hAj : ∀ i < n, ∀ j ∈ csrRow Ap Aj i, j < n)
    (hsym : ∀ i < n, ∀ j < n, j ∈ csrRow Ap Aj i → i ∈ csrRow Ap Aj j)
    {s : MISPState} {i : ℕ} (hi : i < n)
    (hinv : MISInv n Ap Aj activeV s.x s.promoted) :
    MISInv n Ap Aj activeV (misParallelStep Ap Aj activeV C F y s i).x
      (misParallelStep Ap Aj activeV C F y s i).promoted := by
  unfold misParallelStep
  by_cases h : s.x.getD i 0 ≠ activeV
  · rw [if_pos h]; exact hinv
  · rw [if_neg h]
    cases hscan : lubyScan activeV C s.x y i (csrRow Ap Aj i) with
    | none =>
        exact MISInv_promoteParallel hC hF hAj hsym hinv hi (not_ne_iff.mp h)
    | some b =>
        cases b with
        | false => exact hinv
        | true => exact MISInv_setF hF hinv i

theorem misParallelRound_inv {n : ℕ} {Ap Aj : List ℕ} {activeV C F : ℤ} {y : List ℚ}
    (hC : C ≠ activeV) (hF : F ≠ activeV)
    (hAj : ∀ i < n, ∀ j ∈ csrRow Ap Aj i, j < n)
    (hsym : ∀ i < n, ∀ j < n, j ∈ csrRow Ap Aj i → i ∈ csrRow Ap Aj j) :
    ∀ (l : List ℕ), (∀ i ∈ l, i < n) → ∀ s : MISPState,
      MISInv n Ap Aj activeV s.x s.promoted →
      MISInv n Ap Aj activeV
        (l.foldl (misParallelStep Ap Aj activeV C F y) s).x
        (l.foldl (misParallelStep Ap Aj activeV C F y) s).promoted := by
  intro l
  induction l with
  | nil => intro _ s hs; exact hs
  | cons i t ih =>
      intro hl s hs
      rw [List.foldl_cons]
      exact ih (fun m hm => hl m (List.mem_cons_of_mem i hm)) _
        (misParallelStep_inv hC hF hAj hsym (hl i (List.mem_cons_self i t)) hs)

theorem misParallelLoop_inv {n : ℕ} {Ap Aj : List ℕ} {activeV C F : ℤ} {y : List ℚ}
    {max_iters : ℤ}
    (hC : C ≠ activeV) (hF : F ≠ activeV)
    (hAj : ∀ i < n, ∀ j ∈ csrRow Ap Aj i, j < n)
    (hsym : ∀ i < n, ∀ j < n, j ∈ csrRow Ap Aj i → i ∈ csrRow Ap Aj j) :
    ∀ (fuel : ℕ) (s : MISPState),
      MISInv n Ap Aj activeV s.x s.promoted →
      MISInv n Ap Aj activeV
        (misParallelLoop n Ap Aj activeV C F y max_iters fuel s).x
        (misParallelLoop n Ap Aj activeV C F y max_iters fuel s).promoted := by
  intro fuel
  induction fuel with
  | zero =>
      intro s hs
      unfold misParallelLoop
      split
      · exact hs
      · exact hs
  | succ fuel' ih =>
      intro s hs
      unfold misParallelLoop
      split
      · exact ih _ (misParallelRound_inv hC hF hAj hsym _
          (fun i hi => List.mem_range.mp hi) _ hs)
      · exact hs

/-- A state whose `active_nodes` flag is down exits the `while` loop
unchanged, for any fuel. -/
theorem misParallelLoop_quiescent {n : ℕ} {Ap Aj : List ℕ} {activeV C F : ℤ}
    {y : List ℚ} {max_iters : ℤ} {fuel : ℕ} {s : MISPState}
    (h : s.activeFlag = false) :
    misParallelLoop n Ap Aj activeV C F y max_iters fuel s = s := by
  cases fuel <;> · unfold misParallelLoop; rw [if_neg (by simp [h])]

/-- **C1.** After `maximal_independent_set_serial` or
`maximal_independent_set_parallel` returns on a symmetric CSR graph
(with in-range column indices and sentinels `C`, `F` distinct from
`active`), the vertices promoted to `C` during the call are pairwise
non-adjacent: for distinct promoted `u`, `v`, `v` does not occur in
`Aj[Ap[u] .. Ap[u+1])`. -/
theorem C1_mis_independent (n : ℕ) (Ap Aj : List ℕ) (activeV C F : ℤ)
    (x : List ℤ) (y : List ℚ) (max_iters : ℤ) (fuel : ℕ)
    (hlen : x.length = n)
    (hAj : ∀ i < n, ∀ j ∈ csrRow Ap Aj i, j < n)
    (hsym : ∀ i < n, ∀ j < n, j ∈ csrRow Ap Aj i → i ∈ csrRow Ap Aj j)
    (hC : C ≠ activeV) (hF : F ≠ activeV) :
    (∀ u ∈ (maximal_independent_set_serial n Ap Aj activeV C F x).promoted,
      ∀ v ∈ (maximal_independent_set_serial n Ap Aj activeV C F x).promoted,
        u ≠ v → v ∉ csrRow Ap Aj u) ∧
    (∀ u ∈ (maximal_independent_set_parallel n Ap Aj activeV C F x y max_iters fuel).promoted,
      ∀ v ∈ (maximal_independent_set_parallel n Ap Aj activeV C F x y max_iters fuel).promoted,
        u ≠ v → v ∉ csrRow Ap Aj u) := by
  have hinit : MISInv n Ap Aj activeV x [] :=
    ⟨hlen, by simp, by simp, by simp⟩
  constructor
  · have h := @misSerial_fold_inv n Ap Aj activeV C F hC hF hAj hsym
      (List.range n) (fun i hi => List.mem_range.mp hi) ⟨x, 0, []⟩ hinit
    exact h.2.2.2
  · have h := @misParallelLoop_inv n Ap Aj activeV C F y max_iters hC hF hAj hsym
      fuel ⟨x, 0, [], true, 0⟩ hinit
    exact h.2.2.2

/-- Witness for C1 on the 3-vertex path `0 - 1 - 2`. -/
theorem C1_mis_independent_witness :
    (([0,0,0] : List ℤ).length = 3 ∧
      (∀ i < 3, ∀ j ∈ csrRow [0,1,3,4] [1,0,2,1] i, j < 3) ∧
      (∀ i < 3, ∀ j < 3, j ∈ csrRow [0,1,3,4] [1,0,2,1] i →
        i ∈ csrRow [0,1,3,4] [1,0,2,1] j) ∧
      (1 : ℤ) ≠ 0 ∧ (2 : ℤ) ≠ 0) ∧
    ((∀ u ∈ (maximal_independent_set_serial 3 [0,1,3,4] [1,0,2,1] 0 1 2 [0,0,0]).promoted,
      ∀ v ∈ (maximal_independent_set_serial 3 [0,1,3,4] [1,0,2,1] 0 1 2 [0,0,0]).promoted,
        u ≠ v → v ∉ csrRow [0,1,3,4] [1,0,2,1] u) ∧
    (∀ u ∈ (maximal_independent_set_parallel 3 [0,1,3,4] [1,0,2,1] 0 1 2 [0,0,0]
        [1/2,1/2,1/2] (-1) 5).promoted,
      ∀ v ∈ (maximal_independent_set_parallel 3 [0,1,3,4] [1,0,2,1] 0 1 2 [0,0,0]
        [1/2,1/2,1/2] (-1) 5).promoted,
        u ≠ v → v ∉ csrRow [0,1,3,4] [1,0,2,1] u)) :=
  ⟨⟨by decide, by decide, by decide, by decide, by decide⟩,
    C1_mis_independent 3 [0,1,3,4] [1,0,2,1] 0 1 2 [0,0,0] [1/2,1/2,1/2] (-1) 5
      (by decide) (by decide) (by decide) (by decide) (by decide)⟩

/-- **C4.** On the triangle `0-1-2` with `y = [0.5, 0.5, 0.5]` and all
three vertices active, `maximal_independent_set_parallel` (unbounded
`max_iters = -1`, any sufficient fuel) promotes exactly vertex 2 — on
equal `y` the larger index wins — returning count 1 and final state
`x = [F, F, C]`. -/
theorem C4_luby_triangle (activeV C F : ℤ) (hC : C ≠ activeV) (hF : F ≠ activeV)
    (fuel : ℕ) :
    maximal_independent_set_parallel 3 [0,2,4,6] [1,2,0,2,0,1] activeV C F
      [activeV, activeV, activeV] [1/2, 1/2, 1/2] (-1) (fuel + 2)
      = ⟨[F, F, C], 1, [2], false, 2⟩ := by
  have hCa : activeV ≠ C := Ne.symm hC
  have hFa : activeV ≠ F := Ne.symm hF
  simp [maximal_independent_set_parallel, misParallelLoop, misParallelRound,
    misParallelStep, lubyScan, misDemote, csrRow, hC, hF, hCa, hFa,
    List.range_succ]
  exact misParallelLoop_quiescent rfl

/-- Witness for C4 at `active = 0`, `C = 1`, `F = 2`, fuel `2 + 3`. -/
theorem C4_luby_triangle_witness :
    ((1 : ℤ) ≠ 0 ∧ (2 : ℤ) ≠ 0) ∧
    maximal_independent_set_parallel 3 [0,2,4,6] [1,2,0,2,0,1] 0 1 2
      [0, 0, 0] [1/2, 1/2, 1/2] (-1) (3 + 2)
      = ⟨[2, 2, 1], 1, [2], false, 2⟩ :=
  ⟨⟨by decide, by decide⟩, C4_luby_triangle 0 1 2 (by decide) (by decide) 3⟩

/-! ## `bellman_ford` (graph.h:552-573) -/

/-- The pairs `(Aj[jj], Ax[jj])` for `jj` in `[Ap[i], Ap[i+1])`:
neighbours of `i` together with the corresponding edge lengths. -/
def csrRowW (Ap Aj : List ℕ) (Ax : List ℤ) (i : ℕ) : List (ℕ × ℤ) :=
  ((Aj.drop (Ap.getD i 0)).zip (Ax.drop (Ap.getD i 0))).take
    (Ap.getD (i + 1) 0 - Ap.getD i 0)

/-- One edge relaxation of the inner loop of `bellman_ford`
(graph.h:562-569): `p` is the running `(xi, nci)` pair. -/
def bfRelaxStep (dl cml : List ℤ) (p : ℤ × ℤ) (jw : ℕ × ℤ) : ℤ × ℤ :=
  if jw.2 + dl.getD jw.1 0 < p.1 then (jw.2 + dl.getD jw.1 0, cml.getD jw.1 0) else p

/-- One iteration of the vertex loop of `bellman_ford` (graph.h:559-572). -/
def bfNodeStep (Ap Aj : List ℕ) (Ax : List ℤ) (s : List ℤ × List ℤ) (i : ℕ) :
    List ℤ × List ℤ :=
  let r := (csrRowW Ap Aj Ax i).foldl (bfRelaxStep s.1 s.2) (s.1.getD i 0, s.2.getD i 0)
  (s.1.set i r.1, s.2.set i r.2)

/-- `bellman_ford` (graph.h:552-573): one in-place relaxation pass over
all nodes; returns the updated `(d, cm)`. -/
def bellman_ford (num_nodes : ℕ) (Ap Aj : List ℕ) (Ax : List ℤ)
    (d cm : List ℤ) : List ℤ × List ℤ :=
  (List.range num_nodes).foldl (bfNodeStep Ap Aj Ax) (d, cm)

theorem bfRelaxFold_fst_le (dl cml : List ℤ) :
    ∀ (L : List (ℕ × ℤ)) (p : ℤ × ℤ),
      (L.foldl (bfRelaxStep dl cml) p).1 ≤ p.1 := by
  intro L
  induction L with
  | nil => intro p; exact le_refl _
  | cons a t ih =>
      intro p
      rw [List.foldl_cons]
      refine le_trans (ih _) ?_
      unfold bfRelaxStep
      by_cases h : a.2 + dl.getD a.1 0 < p.1
      · rw [if_pos h]; exact le_of_lt h
      · rw [if_neg h]

theorem bfNodeStep_fst_le (Ap Aj : List ℕ) (Ax : List ℤ)
    (s : List ℤ × List ℤ) (i t : ℕ) :
    (bfNodeStep Ap Aj Ax s i).1.getD t 0 ≤ s.1.getD t 0 := by
  unfold bfNodeStep
  rcases getD_set_cases s.1 i t
      ((csrRowW Ap Aj Ax i).foldl (bfRelaxStep s.1 s.2)
        (s.1.getD i 0, s.2.getD i 0)).1 0 with hc | hc
  · rw [hc]
    by_cases hit : i = t
    · subst hit; exact bfRelaxFold_fst_le s.1 s.2 _ _
    · rw [getD_set_ne _ _ _ hit] at hc
      rw [hc]
  · rw [hc]

/-- **C10.** A single call to `bellman_ford` never increases any
distance: for every CSR graph with edge lengths `Ax`, every distance
array `d` and cluster-label array `cm`, and every node `i`, the
distance stored at `i` after the call is at most its value before. -/
theorem C10_bellman_ford_monotone (num_nodes : ℕ) (Ap Aj : List ℕ) (Ax : List ℤ)
    (d cm : List ℤ) (i : ℕ) :
    (bellman_ford num_nodes Ap Aj Ax d cm).1.getD i 0 ≤ d.getD i 0 := by
  unfold bellman_ford
  have main : ∀ (L : List ℕ) (s : List ℤ × List ℤ),
      (∀ t, s.1.getD t 0 ≤ d.getD t 0) →
      ∀ t, ((L.foldl (bfNodeStep Ap Aj Ax) s).1).getD t 0 ≤ d.getD t 0 := by
    intro L
    induction L with
    | nil => intro s hs t; exact hs t
    | cons a l ih =>
        intro s hs t
        rw [List.foldl_cons]
        refine ih _ (fun u => ?_) t
        exact le_trans (bfNodeStep_fst_le Ap Aj Ax s a u) (hs u)
  exact main (List.range num_nodes) (d, cm) (fun t => le_refl _) i

/-! ## `vertex_coloring_first_fit` (graph.h:201-218) -/

/-- The position of the first `false` in a boolean mask, or the mask
length when there is none: `std::find(mask.begin(), mask.end(), false)
- mask.begin()` (graph.h:216). -/
def firstFalse : List Bool → ℕ
  | [] => 0
  | b :: r => if b then firstFalse r + 1 else 0

/-- One neighbour contribution to the first-fit mask (graph.h:210-215):
skip the diagonal and uncoloured vertices, otherwise set `mask[x[j]]`. -/
def ffMaskStep (x : List ℤ) (i : ℕ) (mask : List Bool) (j : ℕ) : List Bool :=
  if j = i then mask
  else if x.getD j 0 < 0 then mask
  else mask.set (x.getD j 0).toNat true

/-- The first-fit neighbour mask of vertex `i` (graph.h:209-215). -/
def ffMask (x : List ℤ) (i : ℕ) (row : List ℕ) (K : ℤ) : List Bool :=
  row.foldl (ffMaskStep x i) (List.replicate K.toNat false)

/-- One iteration of the vertex loop of `vertex_coloring_first_fit`
(graph.h:207-217). -/
def ffVertexStep (Ap Aj : List ℕ) (K : ℤ) (xs : List ℤ) (i : ℕ) : List ℤ :=
  if xs.getD i 0 ≠ K then xs
  else xs.set i (firstFalse (ffMask xs i (csrRow Ap Aj i) K) : ℤ)

/-- `vertex_coloring_first_fit` (graph.h:201-218). -/
def vertex_coloring_first_fit (num_rows : ℕ) (Ap Aj : List ℕ)
    (x : List ℤ) (K : ℤ) : List ℤ :=
  (List.range num_rows).foldl (ffVertexStep Ap Aj K) x

/-- The colour vertex `i` receives from first fit, computed from the
pre-call colouring: the first free slot of its neighbour mask. -/
def ffNewColor (Ap Aj : List ℕ) (x : List ℤ) (K : ℤ) (i : ℕ) : ℤ :=
  (firstFalse (ffMask x i (csrRow Ap Aj i) K) : ℤ)

theorem firstFalse_le_length : ∀ mask : List Bool, firstFalse mask ≤ mask.length := by
  intro mask
  induction mask with
  | nil => exact le_refl 0
  | cons b r ih =>
      unfold firstFalse
      split
      · simpa using ih
      · simp

theorem firstFalse_lt_true : ∀ (mask : List Bool), ∀ c < firstFalse mask,
    mask.getD c false = true := by
  intro mask
  induction mask with
  | nil => intro c hc; exact absurd hc (by simp [firstFalse])
  | cons b r ih =>
      intro c hc
      unfold firstFalse at hc
      by_cases hb : b
      · rw [if_pos hb] at hc
        cases c with
        | zero => simpa using hb
        | succ c' => exact ih c' (Nat.lt_of_succ_lt_succ hc)
      · rw [if_neg hb] at hc
        exact absurd hc (Nat.not_lt_zero c)

theorem firstFalse_self_false : ∀ mask : List Bool,
    firstFalse mask < mask.length → mask.getD (firstFalse mask) false = false := by
  intro mask
  induction mask with
  | nil => intro h; exact absurd h (by simp)
  | cons b r ih =>
      intro h
      unfold firstFalse at h ⊢
      by_cases hb : b
      · rw [if_pos hb] at h ⊢
        exact ih (by simpa using h)
      · rw [if_neg hb] at h ⊢
        simpa using hb

theorem ffMaskFold_length (x : List ℤ) (i : ℕ) :
    ∀ (row : List ℕ) (mask0 : List Bool),
      (row.foldl (ffMaskStep x i) mask0).length = mask0.length := by
  intro row
  induction row with
  | nil => intro mask0; rfl
  | cons j t ih =>
      intro mask0
      rw [List.foldl_cons, ih]
      unfold ffMaskStep
      split
      · rfl
      · split
        · rfl
        · simp

theorem ffMask_length (x : List ℤ) (i : ℕ) (row : List ℕ) (K : ℤ) :
    (ffMask x i row K).length = K.toNat := by
  unfold ffMask
  rw [ffMaskFold_length]
  simp

theorem ffMaskFold_getD_iff (x : List ℤ) (i c : ℕ) :
    ∀ (row : List ℕ) (mask0 : List Bool), c < mask0.length →
      ((row.foldl (ffMaskStep x i) mask0).getD c false = true ↔
        (mask0.getD c false = true ∨
          ∃ j ∈ row, j ≠ i ∧ 0 ≤ x.getD j 0 ∧ (x.getD j 0).toNat = c)) := by
  intro row
  induction row with
  | nil => intro mask0 _; simp
  | cons j t ih =>
      intro mask0 hc
      rw [List.foldl_cons]
      have hlen : (ffMaskStep x i mask0 j).length = mask0.length := by
        unfold ffMaskStep
        split
        · rfl
        · split
          · rfl
          · simp
      rw [ih _ (hlen ▸ hc)]
      constructor
      · rintro (hm | ⟨m, hmt, hmi, hmnn, hmc⟩)
        · unfold ffMaskStep at hm
          by_cases hji : j = i
          · rw [if_pos hji] at hm
            exact Or.inl hm
          · rw [if_neg hji] at hm
            by_cases hneg : x.getD j 0 < 0
            · rw [if_pos hneg] at hm
              exact Or.inl hm
            · rw [if_neg hneg] at hm
              by_cases hjc : (x.getD j 0).toNat = c
              · exact Or.inr ⟨j, List.mem_cons_self j t, hji, not_lt.mp hneg, hjc⟩
              · rw [getD_set_ne _ _ _ (fun he => hjc he)] at hm
                exact Or.inl hm
        · exact Or.inr ⟨m, List.mem_cons_of_mem j hmt, hmi, hmnn, hmc⟩
      · rintro (hm | ⟨m, hmt, hmi, hmnn, hmc⟩)
        · left
          unfold ffMaskStep
          split
          · exact hm
          · split
            · exact hm
            · rcases getD_set_cases mask0 (x.getD j 0).toNat c true false with h | h <;>
                rw [h]
              exact hm
        · rcases List.mem_cons.mp hmt with rfl | hmt'
          · left
            unfold ffMaskStep
            rw [if_neg hmi, if_neg (not_lt.mpr hmnn)]
            rw [hmc]
            exact getD_set_self _ _ _ _ hc
          · exact Or.inr ⟨m, hmt', hmi, hmnn, hmc⟩

theorem ffMask_getD_iff (x : List ℤ) (i : ℕ) (row : List ℕ) (K : ℤ)
    (c : ℕ) (hc : c < K.toNat) :
    ((ffMask x i row K).getD c false = true ↔
      ∃ j ∈ row, j ≠ i ∧ 0 ≤ x.getD j 0 ∧ (x.getD j 0).toNat = c) := by
  unfold ffMask
  rw [ffMaskFold_getD_iff x i c row _ (by simpa using hc)]
  have : (List.replicate K.toNat (false : Bool)).getD c false = false := by
    rw [List.getD_eq_getElem?_getD, List.getElem?_replicate]
    split <;> rfl
  rw [this]
  simp

theorem ffMask_congr (x xs : List ℤ) (i : ℕ) :
    ∀ (row : List ℕ), (∀ j ∈ row, j ≠ i → xs.getD j 0 = x.getD j 0) →
      ∀ mask0 : List Bool,
        row.foldl (ffMaskStep xs i) mask0 = row.foldl (ffMaskStep x i) mask0 := by
  intro row
  induction row with
  | nil => intro _ mask0; rfl
  | cons j t ih =>
      intro hrow mask0
      rw [List.foldl_cons, List.foldl_cons]
      have hstep : ffMaskStep xs i mask0 j = ffMaskStep x i mask0 j := by
        unfold ffMaskStep
        by_cases hji : j = i
        · rw [if_pos hji, if_pos hji]
        · rw [if_neg hji, if_neg hji,
            hrow j (List.mem_cons_self j t) hji]
      rw [hstep]
      exact ih (fun m hm hmi => hrow m (List.mem_cons_of_mem j hm) hmi) _

theorem ffNewColor_isLeast (Ap Aj : List ℕ) (x : List ℤ) (K : ℤ) (i : ℕ)
    (hK : 0 ≤ K)
    (hsepi : ∀ j ∈ csrRow Ap Aj i, j ≠ i → x.getD j 0 ≠ K) :
    IsLeast {c : ℤ | 0 ≤ c ∧ c ≤ K ∧
        ∀ j ∈ csrRow Ap Aj i, j ≠ i → 0 ≤ x.getD j 0 → x.getD j 0 ≠ c}
      (ffNewColor Ap Aj x K i) := by
  unfold ffNewColor
  set mask := ffMask x i (csrRow Ap Aj i) K with hmask
  have hmlen : mask.length = K.toNat := ffMask_length x i _ K
  have hle : firstFalse mask ≤ K.toNat := hmlen ▸ firstFalse_le_length mask
  constructor
  · refine ⟨Int.ofNat_nonneg _, ?_, ?_⟩
    · calc (firstFalse mask : ℤ) ≤ (K.toNat : ℤ) := by exact_mod_cast hle
        _ = K := Int.toNat_of_nonneg hK
    · intro j hj hji hjnn hjc
      by_cases hlt : firstFalse mask < K.toNat
      · have hfalse : mask.getD (firstFalse mask) false = false :=
          firstFalse_self_false mask (hmlen ▸ hlt)
        have htrue : mask.getD (firstFalse mask) false = true := by
          rw [hmask, ffMask_getD_iff x i _ K _ hlt]
          exact ⟨j, hj, hji, hjnn, by omega⟩
        rw [hfalse] at htrue
        exact Bool.false_ne_true htrue
      · have hKeq : (firstFalse mask : ℤ) = K := by
          have : firstFalse mask = K.toNat := le_antisymm hle (not_lt.mp hlt)
          rw [this, Int.toNat_of_nonneg hK]
        exact hsepi j hj hji (by rw [hjc, hKeq])
  · intro c hc
    obtain ⟨hc0, hcK, hcfree⟩ := hc
    by_contra hlt
    push_neg at hlt
    have hcn : c.toNat < firstFalse mask := by omega
    have htrue : mask.getD c.toNat false = true := firstFalse_lt_true mask _ hcn
    have hcnK : c.toNat < K.toNat := by omega
    rw [hmask, ffMask_getD_iff x i _ K _ hcnK] at htrue
    obtain ⟨j, hj, hji, hjnn, hjc⟩ := htrue
    exact hcfree j hj hji hjnn (by omega)

theorem firstFit_fold_spec (n : ℕ) (Ap Aj : List ℕ) (x : List ℤ) (K : ℤ)
    (hxlen : x.length = n)
    (hsep : ∀ i < n, ∀ j ∈ csrRow Ap Aj i, j ≠ i →
      x.getD i 0 = K → x.getD j 0 ≠ K) :
    ∀ (l : List ℕ), (∀ m ∈ l, m < n) → l.Nodup →
    ∀ xs : List ℤ, xs.length = x.length →
    (∀ p, (x.getD p 0 ≠ K → xs.getD p 0 = x.getD p 0) ∧
          (x.getD p 0 = K → p ∈ l → xs.getD p 0 = K) ∧
          (x.getD p 0 = K → p ∉ l → p < n →
            xs.getD p 0 = ffNewColor Ap Aj x K p)) →
    (∀ p, (x.getD p 0 ≠ K →
        (l.foldl (ffVertexStep Ap Aj K) xs).getD p 0 = x.getD p 0) ∧
      (x.getD p 0 = K → p < n →
        (l.foldl (ffVertexStep Ap Aj K) xs).getD p 0 = ffNewColor Ap Aj x K p)) := by
  intro l
  induction l with
  | nil =>
      intro _ _ xs _ hinv p
      exact ⟨fun h => (hinv p).1 h,
        fun h hpn => (hinv p).2.2 h (List.not_mem_nil p) hpn⟩
  | cons i t ih =>
      intro hl hnd xs hxs hinv
      rw [List.foldl_cons]
      have hin : i < n := hl i (List.mem_cons_self i t)
      have hit : i ∉ t := (List.nodup_cons.mp hnd).1
      unfold ffVertexStep
      by_cases hxi : xs.getD i 0 ≠ K
      · rw [if_pos hxi]
        refine ih (fun m hm => hl m (List.mem_cons_of_mem i hm))
          (List.nodup_cons.mp hnd).2 xs hxs (fun p => ?_)
        refine ⟨(hinv p).1, fun h hp => (hinv p).2.1 h (List.mem_cons_of_mem i hp),
          fun h hp hpn => ?_⟩
        by_cases hpi : p = i
        · subst hpi
          exact absurd ((hinv p).2.1 h (List.mem_cons_self p t)) hxi
        · refine (hinv p).2.2 h (fun hm => ?_) hpn
          rcases List.mem_cons.mp hm with he | hmt
          · exact hpi he
          · exact hp hmt
      · rw [if_neg hxi]
        have hxsiK : xs.getD i 0 = K := not_ne_iff.mp hxi
        have hxiK : x.getD i 0 = K := by
          by_contra hne
          have heq := (hinv i).1 hne
          rw [heq] at hxsiK
          exact hne hxsiK
        have hcongr : ffMask xs i (csrRow Ap Aj i) K
            = ffMask x i (csrRow Ap Aj i) K := by
          unfold ffMask
          refine ffMask_congr x xs i _ (fun j hj hji => ?_) _
          by_cases hjK : x.getD j 0 = K
          · exact absurd hjK (hsep i hin j hj hji hxiK)
          · exact (hinv j).1 hjK
        rw [hcongr]
        refine ih (fun m hm => hl m (List.mem_cons_of_mem i hm))
          (List.nodup_cons.mp hnd).2 _ (by rw [List.length_set]; exact hxs)
          (fun p => ?_)
        refine ⟨fun h => ?_, fun h hp => ?_, fun h hp hpn => ?_⟩
        · have hpi : p ≠ i := fun he => h (he ▸ hxiK)
          rw [getD_set_ne _ _ _ (fun he => hpi he.symm)]
          exact (hinv p).1 h
        · have hpi : p ≠ i := fun he => hit (he ▸ hp)
          rw [getD_set_ne _ _ _ (fun he => hpi he.symm)]
          exact (hinv p).2.1 h (List.mem_cons_of_mem i hp)
        · by_cases hpi : p = i
          · subst hpi
            rw [getD_set_self _ _ _ _ (by rw [hxs, hxlen]; exact hin)]
            rfl
          · rw [getD_set_ne _ _ _ (fun he => hpi he.symm)]
            refine (hinv p).2.2 h (fun hm => ?_) hpn
            rcases List.mem_cons.mp hm with he | hmt
            · exact hpi he
            · exact hp hmt

theorem foldr_max_le_of_pointwise : ∀ (a b : List ℤ), a.length = b.length →
    (∀ i, a.getD i 0 ≤ b.getD i 0) → ∀ B : ℤ, a.foldr max B ≤ b.foldr max B := by
  intro a
  induction a with
  | nil =>
      intro b hlen _ B
      have hb : b = [] := List.length_eq_zero.mp (by simpa using hlen.symm)
      subst hb
      exact le_refl _
  | cons u at' ih =>
      intro b hlen hpt B
      cases b with
      | nil => exact absurd hlen (by simp)
      | cons v bt =>
          simp only [List.foldr_cons]
          refine max_le_max ?_ ?_
          · have := hpt 0
            simpa using this
          · refine ih bt (by simpa using hlen) (fun i => ?_) B
            have := hpt (i + 1)
            simpa using this

/-- **C7.** Under the first-fit preconditions — every entry of `x` is a
negative sentinel or a colour at most `K`, `0 ≤ K`, and the vertices of
colour `K` are pairwise non-adjacent — `vertex_coloring_first_fit`
leaves every vertex with `x[i] ≠ K` unchanged, reassigns every vertex
with `x[i] = K` to the least colour in `[0, K]` unused by its coloured
neighbours (hence at most its previous value `K`), never increases any
entry, and never increases the maximum entry of `x`. -/
theorem C7_first_fit_monotone (n : ℕ) (Ap Aj : List ℕ) (x : List ℤ) (K : ℤ)
    (hxlen : x.length = n) (hK : 0 ≤ K)
    (hcol : ∀ i < n, x.getD i 0 < 0 ∨ x.getD i 0 ≤ K)
    (hsep : ∀ i < n, ∀ j ∈ csrRow Ap Aj i, j ≠ i →
      x.getD i 0 = K → x.getD j 0 ≠ K) :
    (∀ i, x.getD i 0 ≠ K →
      (vertex_coloring_first_fit n Ap Aj x K).getD i 0 = x.getD i 0) ∧
    (∀ i < n, x.getD i 0 = K →
      IsLeast {c : ℤ | 0 ≤ c ∧ c ≤ K ∧
          ∀ j ∈ csrRow Ap Aj i, j ≠ i → 0 ≤ x.getD j 0 → x.getD j 0 ≠ c}
        ((vertex_coloring_first_fit n Ap Aj x K).getD i 0)) ∧
    (∀ i, (vertex_coloring_first_fit n Ap Aj x K).getD i 0 ≤ x.getD i 0) ∧
    (∀ B : ℤ, (vertex_coloring_first_fit n Ap Aj x K).foldr max B
      ≤ x.foldr max B) := by
  unfold vertex_coloring_first_fit
  have hfold := firstFit_fold_spec n Ap Aj x K hxlen hsep (List.range n)
    (fun m hm => List.mem_range.mp hm) (List.nodup_range n) x rfl
    (fun p => ⟨fun _ => rfl, fun h _ => h, fun _ hp hpn =>
      absurd (List.mem_range.mpr hpn) hp⟩)
  have hleast : ∀ i < n, x.getD i 0 = K →
      IsLeast {c : ℤ | 0 ≤ c ∧ c ≤ K ∧
          ∀ j ∈ csrRow Ap Aj i, j ≠ i → 0 ≤ x.getD j 0 → x.getD j 0 ≠ c}
        (ffNewColor Ap Aj x K i) := by
    intro i hin hxiK
    exact ffNewColor_isLeast Ap Aj x K i hK
      (fun j hj hji => hsep i hin j hj hji hxiK)
  have hval : ∀ i, (vertex_coloring_first_fit n Ap Aj x K).getD i 0
      = x.getD i 0 ∨
      (x.getD i 0 = K ∧ i < n ∧
        (vertex_coloring_first_fit n Ap Aj x K).getD i 0
          = ffNewColor Ap Aj x K i) := by
    intro i
    by_cases hK' : x.getD i 0 = K
    · by_cases hin : i < n
      · exact Or.inr ⟨hK', hin, (hfold i).2 hK' hin⟩
      · -- vertices outside the loop range are untouched
        left
        have huntouched : ∀ (l : List ℕ), (∀ m ∈ l, m < n) → ∀ xs : List ℤ,
            (l.foldl (ffVertexStep Ap Aj K) xs).getD i 0 = xs.getD i 0 := by
          intro l
          induction l with
          | nil => intro _ xs; rfl
          | cons a t ih =>
              intro hl xs
              rw [List.foldl_cons]
              rw [ih (fun m hm => hl m (List.mem_cons_of_mem a hm))]
              unfold ffVertexStep
              split
              · rfl
              · exact getD_set_ne _ _ _
                  (fun he => hin (he ▸ hl a (List.mem_cons_self a t)))
        exact huntouched (List.range n) (fun m hm => List.mem_range.mp hm) x
    · exact Or.inl ((hfold i).1 hK')
  have hpt : ∀ i, (vertex_coloring_first_fit n Ap Aj x K).getD i 0 ≤ x.getD i 0 := by
    intro i
    rcases hval i with h | ⟨hxiK, hin, h⟩
    · exact le_of_eq h
    · rw [h, hxiK]
      exact ((hleast i hin hxiK).1).2.1
  have hflen : (vertex_coloring_first_fit n Ap Aj x K).length = x.length := by
    unfold vertex_coloring_first_fit
    have : ∀ (l : List ℕ) (xs : List ℤ),
        (l.foldl (ffVertexStep Ap Aj K) xs).length = xs.length := by
      intro l
      induction l with
      | nil => intro xs; rfl
      | cons a t ih =>
          intro xs
          rw [List.foldl_cons, ih]
          unfold ffVertexStep
          split
          · rfl
          · simp
    exact this _ x
  refine ⟨fun i h => (hfold i).1 h, ?_, hpt, ?_⟩
  · intro i hin hxiK
    rw [(hfold i).2 hxiK hin]
    exact hleast i hin hxiK
  · exact fun B => foldr_max_le_of_pointwise _ _ hflen hpt B

/-- Witness for C7 on the path `0 - 1 - 2` coloured `[0, 1, 2]` with
`K = 2`. -/
theorem C7_first_fit_monotone_witness :
    (([0, 1, 2] : List ℤ).length = 3 ∧ (0 : ℤ) ≤ 2 ∧
      (∀ i < 3, ([0, 1, 2] : List ℤ).getD i 0 < 0 ∨
        ([0, 1, 2] : List ℤ).getD i 0 ≤ 2) ∧
      (∀ i < 3, ∀ j ∈ csrRow [0,1,3,4] [1,0,2,1] i, j ≠ i →
        ([0, 1, 2] : List ℤ).getD i 0 = 2 →
        ([0, 1, 2] : List ℤ).getD j 0 ≠ 2)) ∧
    (∀ i, ([0, 1, 2] : List ℤ).getD i 0 ≠ 2 →
      (vertex_coloring_first_fit 3 [0,1,3,4] [1,0,2,1] [0,1,2] 2).getD i 0
        = ([0, 1, 2] : List ℤ).getD i 0) ∧
    (∀ i < 3, ([0, 1, 2] : List ℤ).getD i 0 = 2 →
      IsLeast {c : ℤ | 0 ≤ c ∧ c ≤ 2 ∧
          ∀ j ∈ csrRow [0,1,3,4] [1,0,2,1] i, j ≠ i →
            0 ≤ ([0, 1, 2] : List ℤ).getD j 0 →
            ([0, 1, 2] : List ℤ).getD j 0 ≠ c}
        ((vertex_coloring_first_fit 3 [0,1,3,4] [1,0,2,1] [0,1,2] 2).getD i 0)) ∧
    (∀ i, (vertex_coloring_first_fit 3 [0,1,3,4] [1,0,2,1] [0,1,2] 2).getD i 0
      ≤ ([0, 1, 2] : List ℤ).getD i 0) ∧
    (∀ B : ℤ, (vertex_coloring_first_fit 3 [0,1,3,4] [1,0,2,1] [0,1,2] 2).foldr max B
      ≤ ([0, 1, 2] : List ℤ).foldr max B) :=
  ⟨⟨by decide, by decide, by decide, by decide⟩,
    C7_first_fit_monotone 3 [0,1,3,4] [1,0,2,1] [0,1,2] 2
      (by decide) (by decide) (by decide) (by decide)⟩

/-! ## `cluster_node_incidence` (graph.h:368-442) -/

/-- The reflexive closure of the `std::sort` comparator at
graph.h:383-388: `i` may precede `j` when `cm[i] > cm[j]`, or
`cm[i] == cm[j]` and `i ≥ j` (descending cluster, descending index). -/
def icLe (cm : List ℤ) (i j : ℕ) : Prop :=
  cm.getD j 0 < cm.getD i 0 ∨ (cm.getD i 0 = cm.getD j 0 ∧ j ≤ i)

instance icLeDec (cm : List ℤ) : DecidableRel (icLe cm) := by
  intro i j
  unfold icLe
  infer_instance

instance icLeTotal (cm : List ℤ) : IsTotal ℕ (icLe cm) := by
  constructor
  intro a b
  unfold icLe
  omega

instance icLeTrans (cm : List ℤ) : IsTrans ℕ (icLe cm) := by
  constructor
  intro a b c
  unfold icLe
  omega

/-- The `ICp` scan of `cluster_node_incidence` (graph.h:393-404),
together with the final value of the running cluster counter `a`
(which the source asserts to equal `num_clusters`).  `ICp` starts as a
zero array (a defined stand-in for the caller's uninitialised memory);
out-of-range writes, which the source's asserts are meant to rule out,
are no-ops. -/
def cniICp (num_nodes num_clusters : ℕ) (cm : List ℤ) (ICi : List ℕ) :
    List ℕ × ℕ :=
  let s := (List.range num_nodes).foldl
    (fun (s : List ℕ × ℕ) i =>
      if cm.getD (ICi.getD i 0) 0 ≠ (s.2 : ℤ) then
        (s.1.set (s.2 + 1) i, s.2 + 1)
      else s)
    ((List.replicate (num_clusters + 1) 0).set 0 0, 0)
  (s.1.set (s.2 + 1) num_nodes, s.2 + 1)

/-- The `L` fill of `cluster_node_incidence` (graph.h:407-415): a
running global counter `i` walks the cluster blocks and stores each
local index `m` at `L[i]`. -/
def cniL (num_nodes num_clusters : ℕ) (ICp : List ℕ) : List ℕ :=
  ((List.range num_clusters).foldl
    (fun (s : List ℕ × ℕ) a =>
      (List.range (ICp.getD (a + 1) 0 - ICp.getD a 0)).foldl
        (fun (t : List ℕ × ℕ) m => (t.1.set t.2 m, t.2 + 1)) s)
    (List.replicate num_nodes 0, 0)).1

/-- `cluster_node_incidence` (graph.h:368-442), returning
`(ICp, ICi, L)`.  `std::sort` with the strict comparator of
graph.h:383-388 is modelled by insertion sort under the comparator's
reflexive closure `icLe`; since that comparator is a strict total
order on indices the sorted permutation is unique.  The source's
`assert` statements are erased. -/
def cluster_node_incidence (num_nodes num_clusters : ℕ) (cm : List ℤ) :
    List ℕ × List ℕ × List ℕ :=
  let ICi := List.insertionSort (icLe cm) (List.range num_nodes)
  let ICp := (cniICp num_nodes num_clusters cm ICi).1
  let L := cniL num_nodes num_clusters ICp
  (ICp, ICi, L)

/-- **C3.** After `cluster_node_incidence`, `ICi` is the permutation of
`0 .. n-1` sorted descending by cluster label, ties broken descending
by global node index. -/
theorem C3_incidence_sort_order (num_nodes num_clusters : ℕ) (cm : List ℤ) :
    ((cluster_node_incidence num_nodes num_clusters cm).2.1).Perm
      (List.range num_nodes) ∧
    List.Pairwise
      (fun i j => cm.getD j 0 < cm.getD i 0 ∨
        (cm.getD i 0 = cm.getD j 0 ∧ j < i))
      ((cluster_node_incidence num_nodes num_clusters cm).2.1) := by
  have hperm : ((cluster_node_incidence num_nodes num_clusters cm).2.1).Perm
      (List.range num_nodes) := List.perm_insertionSort _ _
  refine ⟨hperm, ?_⟩
  have hsorted : List.Pairwise (icLe cm)
      ((cluster_node_incidence num_nodes num_clusters cm).2.1) :=
    List.sorted_insertionSort _ _
  have hnodup : ((cluster_node_incidence num_nodes num_clusters cm).2.1).Nodup :=
    hperm.nodup_iff.mpr (List.nodup_range num_nodes)
  have hcomb := hsorted.and hnodup
  refine hcomb.imp ?_
  intro a b hab
  obtain ⟨hle, hne⟩ := hab
  unfold icLe at hle
  rcases hle with h | ⟨heq, hba⟩
  · exact Or.inl h
  · exact Or.inr ⟨heq, lt_of_le_of_ne hba (fun he => hne (he ▸ rfl))⟩

/-- **C2 refutation.** On `num_nodes = 2`, `num_clusters = 2`,
`cm = [0, 1]` — both clusters non-empty — the round-trip invariant
fails at node 0: `ICi[ICp[cm[0]] + L[0]] = 1 ≠ 0`, and the scan counter
the source asserts to equal `num_clusters` ends at 3. -/
theorem C2_incidence_roundtrip_fails :
    ((cluster_node_incidence 2 2 [0, 1]).2.1).getD
        (((cluster_node_incidence 2 2 [0, 1]).1).getD 0 0
          + ((cluster_node_incidence 2 2 [0, 1]).2.2).getD 0 0) 0 ≠ 0 ∧
    (cniICp 2 2 [0, 1]
      (List.insertionSort (icLe [0, 1]) (List.range 2))).2 ≠ 2 := by
  decide

/-! ## `bellman_ford_balanced` (graph.h:598-660) -/

/-- State of `bellman_ford_balanced`: distances, cluster labels, the
`predecessor` and `pred_count` scratch vectors, the cluster sizes `cs`,
and the per-sweep `change` flag. -/
structure BFBState where
  d : List ℤ
  cm : List ℤ
  predecessor : List ℤ
  pred_count : List ℤ
  cs : List ℤ
  change : Bool
deriving Repr, DecidableEq

/-- One edge examination of `bellman_ford_balanced` (graph.h:627-656):
switch node `i` to `j`'s cluster on a strict improvement, or on an
equal-distance rebalance towards a smaller cluster when `i` is nobody's
predecessor; update sizes, predecessor bookkeeping, distance, label. -/
def bfbEdgeStep (s : BFBState) (i : ℕ) (jw : ℕ × ℤ) : BFBState :=
  let j := jw.1
  let new_d := jw.2 + s.d.getD j 0
  if new_d < s.d.getD i 0 ∨
      (s.cm.getD i 0 > -1 ∧ new_d = s.d.getD i 0 ∧
        s.cs.getD (s.cm.getD j 0).toNat 0 < s.cs.getD (s.cm.getD i 0).toNat 0 ∧
        s.pred_count.getD i 0 = 0) then
    let cs1 := if s.cm.getD i 0 > -1 then
        s.cs.set (s.cm.getD i 0).toNat (s.cs.getD (s.cm.getD i 0).toNat 0 - 1)
      else s.cs
    let cs2 := cs1.set (s.cm.getD j 0).toNat (cs1.getD (s.cm.getD j 0).toNat 0 + 1)
    let pc1 := if s.predecessor.getD i 0 > -1 then
        s.pred_count.set (s.predecessor.getD i 0).toNat
          (s.pred_count.getD (s.predecessor.getD i 0).toNat 0 - 1)
      else s.pred_count
    let pc2 := pc1.set j (pc1.getD j 0 + 1)
    { d := s.d.set i new_d,
      cm := s.cm.set i (s.cm.getD j 0),
      predecessor := s.predecessor.set i (j : ℤ),
      pred_count := pc2,
      cs := cs2,
      change := true }
  else s

/-- One full sweep of the `do` body (graph.h:626-657): all nodes in
ascending order, all incident edges in stored order. -/
def bfbSweep (num_nodes : ℕ) (Ap Aj : List ℕ) (Ax : List ℤ) (s : BFBState) :
    BFBState :=
  (List.range num_nodes).foldl
    (fun s i => (csrRowW Ap Aj Ax i).foldl (fun s jw => bfbEdgeStep s i jw) s) s

/-- `t` iterations of the `do`-`while` body, each starting with
`change = false` (graph.h:624-625). -/
def bfbSweeps (num_nodes : ℕ) (Ap Aj : List ℕ) (Ax : List ℤ) :
    ℕ → BFBState → BFBState
  | 0, s => s
  | t + 1, s =>
      bfbSweeps num_nodes Ap Aj Ax t
        (bfbSweep num_nodes Ap Aj Ax { s with change := false })

/-- The initial state of `bellman_ford_balanced` (graph.h:611-619):
fresh predecessor bookkeeping and cluster sizes counted from `cm`. -/
def bfbInit (num_nodes num_clusters : ℕ) (d cm : List ℤ) : BFBState :=
  { d := d
    cm := cm
    predecessor := List.replicate num_nodes (-1)
    pred_count := List.replicate num_nodes 0
    cs := (List.range num_nodes).foldl
      (fun cs i =>
        if cm.getD i 0 > -1 then
          cs.set (cm.getD i 0).toNat (cs.getD (cm.getD i 0).toNat 0 + 1)
        else cs)
      (List.replicate num_clusters 0)
    change := true }

/-- The `do`-`while` loop of `bellman_ford_balanced` (graph.h:624-659):
repeat sweeps until one reports no change, up to `fuel` iterations (the
source's safety cap asserts fewer than `num_nodes³` iterations). -/
def bfbLoop (num_nodes : ℕ) (Ap Aj : List ℕ) (Ax : List ℤ) :
    ℕ → BFBState → BFBState
  | 0, s => s
  | t + 1, s =>
      let s2 := bfbSweep num_nodes Ap Aj Ax { s with change := false }
      if s2.change then bfbLoop num_nodes Ap Aj Ax t s2 else s2

/-- `bellman_ford_balanced` (graph.h:598-660), run up to the source's
`num_nodes³` iteration cap.  The `c` (cluster centres) argument is
read only by the source's size assert and does not influence the
computation. -/
def bellman_ford_balanced (num_nodes num_clusters : ℕ) (Ap Aj : List ℕ)
    (Ax : List ℤ) (d cm : List ℤ) (c : List ℕ) : BFBState :=
  bfbLoop num_nodes Ap Aj Ax (num_nodes * num_nodes * num_nodes)
    (bfbInit num_nodes num_clusters d cm)

/-- Shared fixpoint fact for the C8 oscillation: on the graph with
edges `0-2`, `1-2` (unit weights), `d = [0,0,1]`, clusters `{0}` and
`{1,2}`, the state reached after one sweep reproduces itself with
`change = true` on every further sweep of the `do`-`while` loop. -/
theorem bfbLoop_osc_fix (u : ℕ) :
    bfbLoop 3 [0,1,2,4] [2,2,0,1] [1,1,1,1] u
        ⟨[0,0,1], [0,1,1], [-1,-1,1], [0,1,0], [1,2], true⟩
      = ⟨[0,0,1], [0,1,1], [-1,-1,1], [0,1,0], [1,2], true⟩ := by
  induction u with
  | zero => rfl
  | succ v ih =>
      rw [bfbLoop]
      rw [show ({ (⟨[0,0,1], [0,1,1], [-1,-1,1], [0,1,0], [1,2], true⟩ : BFBState)
          with change := false })
        = (⟨[0,0,1], [0,1,1], [-1,-1,1], [0,1,0], [1,2], false⟩ : BFBState) from rfl]
      rw [show bfbSweep 3 [0,1,2,4] [2,2,0,1] [1,1,1,1]
          ⟨[0,0,1], [0,1,1], [-1,-1,1], [0,1,0], [1,2], false⟩
          = ⟨[0,0,1], [0,1,1], [-1,-1,1], [0,1,0], [1,2], true⟩ from by decide]
      exact ih

/-- **C8 refutation.** On the valid input with symmetric unit-weight
edges `0-2`, `1-2`, `d = [0,0,1]`, `cm = [0,1,1]`, centres `c = [0,1]`,
the `do`-`while` loop of `bellman_ford_balanced` still reports a change
after `num_nodes³ = 27` sweeps: the equal-distance rebalance moves node
2 back and forth between the two clusters forever, so the safety cap is
exceeded. -/
theorem C8_balanced_cap_exceeded :
    (bellman_ford_balanced 3 2 [0,1,2,4] [2,2,0,1] [1,1,1,1]
      [0,0,1] [0,1,1] [0,1]).change = true := by
  show (bfbLoop 3 [0,1,2,4] [2,2,0,1] [1,1,1,1] (26 + 1)
      (bfbInit 3 2 [0,0,1] [0,1,1])).change = true
  rw [bfbLoop]
  rw [show ({ bfbInit 3 2 [0,0,1] [0,1,1] with change := false })
    = (⟨[0,0,1], [0,1,1], [-1,-1,-1], [0,0,0], [1,2], false⟩ : BFBState) from by decide]
  rw [show bfbSweep 3 [0,1,2,4] [2,2,0,1] [1,1,1,1]
      ⟨[0,0,1], [0,1,1], [-1,-1,-1], [0,0,0], [1,2], false⟩
      = ⟨[0,0,1], [0,1,1], [-1,-1,1], [0,1,0], [1,2], true⟩ from by decide]
  rw [show (if (⟨[0,0,1], [0,1,1], [-1,-1,1], [0,1,0], [1,2], true⟩ : BFBState).change
        = true then
      bfbLoop 3 [0,1,2,4] [2,2,0,1] [1,1,1,1] 26
        ⟨[0,0,1], [0,1,1], [-1,-1,1], [0,1,0], [1,2], true⟩
    else (⟨[0,0,1], [0,1,1], [-1,-1,1], [0,1,0], [1,2], true⟩ : BFBState))
    = bfbLoop 3 [0,1,2,4] [2,2,0,1] [1,1,1,1] 26
        ⟨[0,0,1], [0,1,1], [-1,-1,1], [0,1,0], [1,2], true⟩ from rfl]
  rw [bfbLoop_osc_fix 26]

/-- **C8 (amended).** Termination is not guaranteed: there are valid
inputs (symmetric graph, non-negative weights, non-empty clusters,
centres at distance 0) on which every sweep of the `do`-`while` loop
reports a change — the loop never reaches a no-change sweep, for any
number of iterations, and the `num_nodes³` safety cap fires. -/
theorem C8_balanced_no_quiescence (t : ℕ) :
    (bfbSweeps 3 [0,1,2,4] [2,2,0,1] [1,1,1,1] (t + 1)
      (bfbInit 3 2 [0,0,1] [0,1,1])).change = true := by
  have hfix : ∀ u : ℕ, bfbSweeps 3 [0,1,2,4] [2,2,0,1] [1,1,1,1] u
      ⟨[0,0,1], [0,1,1], [-1,-1,1], [0,1,0], [1,2], true⟩
      = ⟨[0,0,1], [0,1,1], [-1,-1,1], [0,1,0], [1,2], true⟩ := by
    intro u
    induction u with
    | zero => rfl
    | succ v ih =>
        rw [bfbSweeps]
        rw [show ({ (⟨[0,0,1], [0,1,1], [-1,-1,1], [0,1,0], [1,2], true⟩ : BFBState)
            with change := false })
          = (⟨[0,0,1], [0,1,1], [-1,-1,1], [0,1,0], [1,2], false⟩ : BFBState) from rfl]
        rw [show bfbSweep 3 [0,1,2,4] [2,2,0,1] [1,1,1,1]
            ⟨[0,0,1], [0,1,1], [-1,-1,1], [0,1,0], [1,2], false⟩
            = ⟨[0,0,1], [0,1,1], [-1,-1,1], [0,1,0], [1,2], true⟩ from by decide]
        exact ih
  rw [bfbSweeps]
  rw [show ({ bfbInit 3 2 [0,0,1] [0,1,1] with change := false })
    = (⟨[0,0,1], [0,1,1], [-1,-1,-1], [0,0,0], [1,2], false⟩ : BFBState) from by decide]
  rw [show bfbSweep 3 [0,1,2,4] [2,2,0,1] [1,1,1,1]
      ⟨[0,0,1], [0,1,1], [-1,-1,-1], [0,0,0], [1,2], false⟩
      = ⟨[0,0,1], [0,1,1], [-1,-1,1], [0,1,0], [1,2], true⟩ from by decide]
  rw [hfix t]

/-- Witness for the amended C8 theorem at `t = 27`. -/
theorem C8_balanced_no_quiescence_witness :
    (bfbSweeps 3 [0,1,2,4] [2,2,0,1] [1,1,1,1] (27 + 1)
      (bfbInit 3 2 [0,0,1] [0,1,1])).change = true :=
  C8_balanced_no_quiescence 27

/-! ## Serial MIS round bookkeeping (for `vertex_coloring_mis`) -/

theorem misDemote_val_cases (activeV F : ℤ) (row : List ℕ) :
    ∀ (x : List ℤ) (j : ℕ),
      (misDemote activeV F row x).getD j 0 = x.getD j 0 ∨
      (x.getD j 0 = activeV ∧ (misDemote activeV F row x).getD j 0 = F) := by
  induction row with
  | nil => intro x j; exact Or.inl rfl
  | cons r t ih =>
      intro x j
      have hrw : misDemote activeV F (r :: t) x
          = misDemote activeV F t (if x.getD r 0 = activeV then x.set r F else x) := rfl
      rw [hrw]
      by_cases hr : x.getD r 0 = activeV
      · rw [if_pos hr]
        rcases getD_set_cases x r j F 0 with hset | hset
        · -- the write reached position j, so j = r was active and now holds F
          by_cases hjr : j = r
          · subst hjr
            rcases ih (x.set j F) j with h | ⟨hA, h⟩
            · exact Or.inr ⟨hr, by rw [h, hset]⟩
            · exact Or.inr ⟨hr, h⟩
          · rcases ih (x.set r F) j with h | ⟨hA, h⟩
            · rw [getD_set_ne x F 0 (fun he => hjr he.symm)] at h
              exact Or.inl h
            · rw [getD_set_ne x F 0 (fun he => hjr he.symm)] at hA
              exact Or.inr ⟨hA, h⟩
        · rcases ih (x.set r F) j with h | ⟨hA, h⟩
          · rw [hset] at h
            exact Or.inl h
          · rw [hset] at hA
            exact Or.inr ⟨hA, h⟩
      · rw [if_neg hr]
        exact ih x j

theorem misDemote_pres (activeV F : ℤ) (row : List ℕ) (x : List ℤ) (j : ℕ)
    (h : x.getD j 0 ≠ activeV) :
    (misDemote activeV F row x).getD j 0 = x.getD j 0 := by
  rcases misDemote_val_cases activeV F row x j with hc | ⟨hA, _⟩
  · exact hc
  · exact absurd hA h

theorem misSerialStep_length (Ap Aj : List ℕ) (activeV C F : ℤ)
    (s : MISState) (i : ℕ) :
    (misSerialStep Ap Aj activeV C F s i).x.length = s.x.length := by
  unfold misSerialStep
  split
  · rfl
  · simp [misDemote_length]

theorem misSerialStep_val_cases (Ap Aj : List ℕ) {activeV C F : ℤ}
    (hC : C ≠ activeV) (s : MISState) {i : ℕ} (hi : i < s.x.length) (j : ℕ) :
    (misSerialStep Ap Aj activeV C F s i).x.getD j 0 = s.x.getD j 0 ∨
    (s.x.getD j 0 = activeV ∧
      ((misSerialStep Ap Aj activeV C F s i).x.getD j 0 = F ∨
        (j = i ∧ (misSerialStep Ap Aj activeV C F s i).x.getD j 0 = C))) := by
  unfold misSerialStep
  by_cases h : s.x.getD i 0 ≠ activeV
  · rw [if_pos h]
    exact Or.inl rfl
  · rw [if_neg h]
    have hact : s.x.getD i 0 = activeV := not_ne_iff.mp h
    by_cases hji : j = i
    · subst hji
      refine Or.inr ⟨hact, Or.inr ⟨rfl, ?_⟩⟩
      show (misDemote activeV F (csrRow Ap Aj j) (s.x.set j C)).getD j 0 = C
      rw [misDemote_pres activeV F _ _ j
        (by rw [getD_set_self s.x j C 0 hi]; exact hC)]
      exact getD_set_self s.x j C 0 hi
    · rcases misDemote_val_cases activeV F (csrRow Ap Aj i) (s.x.set i C) j
          with hc | ⟨hA, hc⟩
      · rw [getD_set_ne s.x C 0 (fun he => hji he.symm)] at hc
        exact Or.inl hc
      · rw [getD_set_ne s.x C 0 (fun he => hji he.symm)] at hA
        exact Or.inr ⟨hA, Or.inl hc⟩

theorem misSerialStep_pres (Ap Aj : List ℕ) {activeV C F : ℤ}
    (hC : C ≠ activeV) (s : MISState) {i : ℕ} (hi : i < s.x.length) (j : ℕ)
    (h : s.x.getD j 0 ≠ activeV) :
    (misSerialStep Ap Aj activeV C F s i).x.getD j 0 = s.x.getD j 0 := by
  rcases misSerialStep_val_cases Ap Aj hC s hi j with hc | ⟨hA, _⟩
  · exact hc
  · exact absurd hA h

/-- Bookkeeping invariant for one serial MIS round, relative to the
pre-round state `x0`. -/
def SerialRoundInv (activeV C F : ℤ) (x0 : List ℤ) (s : MISState) : Prop :=
  s.x.length = x0.length ∧
  s.count = s.promoted.length ∧
  s.promoted.Nodup ∧
  (∀ p ∈ s.promoted, s.x.getD p 0 = C ∧ x0.getD p 0 = activeV) ∧
  (∀ j, s.x.getD j 0 = x0.getD j 0 ∨
    (x0.getD j 0 = activeV ∧ (s.x.getD j 0 = C ∨ s.x.getD j 0 = F))) ∧
  (∀ j, s.x.getD j 0 = C → x0.getD j 0 = C ∨ j ∈ s.promoted)

theorem misSerialStep_roundInv (Ap Aj : List ℕ) {activeV C F : ℤ}
    (hC : C ≠ activeV) (hCF : C ≠ F)
    {x0 : List ℤ} {s : MISState} {i : ℕ} (hi : i < x0.length)
    (hinv : SerialRoundInv activeV C F x0 s) :
    SerialRoundInv activeV C F x0 (misSerialStep Ap Aj activeV C F s i) := by
  obtain ⟨hlen, hcnt, hnd, hprom, hval, hCori⟩ := hinv
  have hi' : i < s.x.length := by rw [hlen]; exact hi
  unfold misSerialStep
  by_cases h : s.x.getD i 0 ≠ activeV
  · rw [if_pos h]
    exact ⟨hlen, hcnt, hnd, hprom, hval, hCori⟩
  · rw [if_neg h]
    have hact : s.x.getD i 0 = activeV := not_ne_iff.mp h
    have hx0i : x0.getD i 0 = activeV := by
      rcases hval i with hc | ⟨hA, _⟩
      · rw [← hc]; exact hact
      · exact hA
    have hiNotProm : i ∉ s.promoted := fun hmem => hC ((hprom i hmem).1 ▸ hact)
    have hCval : (misDemote activeV F (csrRow Ap Aj i) (s.x.set i C)).getD i 0 = C := by
      rw [misDemote_pres activeV F _ _ i
        (by rw [getD_set_self s.x i C 0 hi']; exact hC)]
      exact getD_set_self s.x i C 0 hi'
    have hother : ∀ j, j ≠ i →
        (misDemote activeV F (csrRow Ap Aj i) (s.x.set i C)).getD j 0 = s.x.getD j 0 ∨
        (s.x.getD j 0 = activeV ∧
          (misDemote activeV F (csrRow Ap Aj i) (s.x.set i C)).getD j 0 = F) := by
      intro j hji
      rcases misDemote_val_cases activeV F (csrRow Ap Aj i) (s.x.set i C) j
          with hc | ⟨hA, hc⟩
      · rw [getD_set_ne s.x C 0 (fun he => hji he.symm)] at hc
        exact Or.inl hc
      · rw [getD_set_ne s.x C 0 (fun he => hji he.symm)] at hA
        exact Or.inr ⟨hA, hc⟩
    refine ⟨by simp [misDemote_length, hlen], by simp [hcnt], ?_, ?_, ?_, ?_⟩
    · simpa [List.nodup_append] using ⟨hnd, hiNotProm⟩
    · intro p hp
      rcases List.mem_append.mp hp with hpo | hpi
      · obtain ⟨hpC, hpx0⟩ := hprom p hpo
        have hpne : p ≠ i := fun he => hiNotProm (he ▸ hpo)
        rcases hother p hpne with hc | ⟨hA, _⟩
        · exact ⟨by rw [hc]; exact hpC, hpx0⟩
        · exact absurd hA (by rw [hpC]; exact hC)
      · rw [List.mem_singleton.mp hpi]
        exact ⟨hCval, hx0i⟩
    · intro j
      by_cases hji : j = i
      · subst hji
        exact Or.inr ⟨hx0i, Or.inl hCval⟩
      · rcases hother j hji with hc | ⟨hA, hc⟩
        · rw [hc]
          exact hval j
        · refine Or.inr ⟨?_, Or.inr hc⟩
          rcases hval j with hc' | ⟨hA', _⟩
          · rw [← hc']; exact hA
          · exact hA'
    · intro j hjC
      by_cases hji : j = i
      · subst hji
        exact Or.inr (List.mem_append.mpr (Or.inr (List.mem_singleton.mpr rfl)))
      · rcases hother j hji with hc | ⟨hA, hc⟩
        · rw [hc] at hjC
          rcases hCori j hjC with h0 | hmem
          · exact Or.inl h0
          · exact Or.inr (List.mem_append.mpr (Or.inl hmem))
        · rw [hc] at hjC
          exact absurd hjC.symm hCF

theorem misSerial_fold_roundInv (Ap Aj : List ℕ) {activeV C F : ℤ}
    (hC : C ≠ activeV) (hCF : C ≠ F) {x0 : List ℤ} :
    ∀ (l : List ℕ), (∀ m ∈ l, m < x0.length) → ∀ s : MISState,
      SerialRoundInv activeV C F x0 s →
      SerialRoundInv activeV C F x0 (l.foldl (misSerialStep Ap Aj activeV C F) s) := by
  intro l
  induction l with
  | nil => intro _ s hs; exact hs
  | cons i t ih =>
      intro hl s hs
      rw [List.foldl_cons]
      exact ih (fun m hm => hl m (List.mem_cons_of_mem i hm)) _
        (misSerialStep_roundInv Ap Aj hC hCF (hl i (List.mem_cons_self i t)) hs)

theorem misSerial_roundInv (num_rows : ℕ) (Ap Aj : List ℕ) {activeV C F : ℤ}
    (hC : C ≠ activeV) (hCF : C ≠ F) (x0 : List ℤ) (hn : x0.length = num_rows) :
    SerialRoundInv activeV C F x0
      (maximal_independent_set_serial num_rows Ap Aj activeV C F x0) := by
  unfold maximal_independent_set_serial
  refine misSerial_fold_roundInv Ap Aj hC hCF (List.range num_rows)
    (fun m hm => by rw [hn]; exact List.mem_range.mp hm) ⟨x0, 0, []⟩ ?_
  exact ⟨rfl, rfl, List.nodup_nil, by simp, fun j => Or.inl rfl, fun j hjC =>
    Or.inl hjC⟩

theorem misSerial_resolve_fold (Ap Aj : List ℕ) {activeV C F : ℤ}
    (hC : C ≠ activeV) (hF : F ≠ activeV) (j : ℕ) :
    ∀ (r : List ℕ) (s : MISState), (∀ m ∈ r, m < s.x.length) →
      ((s.x.getD j 0 = C ∨ s.x.getD j 0 = F) ∨
        (s.x.getD j 0 = activeV ∧ j ∈ r)) →
      ((r.foldl (misSerialStep Ap Aj activeV C F) s).x.getD j 0 = C ∨
        (r.foldl (misSerialStep Ap Aj activeV C F) s).x.getD j 0 = F) := by
  intro r
  induction r with
  | nil =>
      intro s _ hcase
      rcases hcase with h | ⟨_, hmem⟩
      · exact h
      · exact absurd hmem (List.not_mem_nil j)
  | cons i t ih =>
      intro s hr hcase
      rw [List.foldl_cons]
      have hi : i < s.x.length := hr i (List.mem_cons_self i t)
      have hlen : ∀ m ∈ t, m < (misSerialStep Ap Aj activeV C F s i).x.length := by
        intro m hm
        rw [misSerialStep_length]
        exact hr m (List.mem_cons_of_mem i hm)
      rcases hcase with hCFc | ⟨hA, hmem⟩
      · refine ih _ hlen (Or.inl ?_)
        have hne : s.x.getD j 0 ≠ activeV := by
          rcases hCFc with h | h
          · rw [h]; exact hC
          · rw [h]; exact hF
        rw [misSerialStep_pres Ap Aj hC s hi j hne]
        exact hCFc
      · rcases misSerialStep_val_cases Ap Aj hC s hi j with hc | ⟨_, hFC⟩
        · -- value unchanged: still active, so j must still be in the tail
          rcases List.mem_cons.mp hmem with hji | hjt
          · -- j = i and x[i] is active: the step promotes i, so the value
            -- cannot be unchanged unless it equals C; handle via cases below
            subst hji
            have : (misSerialStep Ap Aj activeV C F s j).x.getD j 0 = C := by
              unfold misSerialStep
              rw [if_neg (not_ne_iff.mpr hA)]
              show (misDemote activeV F (csrRow Ap Aj j) (s.x.set j C)).getD j 0 = C
              rw [misDemote_pres activeV F _ _ j
                (by rw [getD_set_self s.x j C 0 hi]; exact hC)]
              exact getD_set_self s.x j C 0 hi
            exact ih _ hlen (Or.inl (Or.inl this))
          · refine ih _ hlen (Or.inr ⟨by rw [hc]; exact hA, hjt⟩)
        · rcases hFC with hFc | ⟨_, hCc⟩
          · exact ih _ hlen (Or.inl (Or.inr hFc))
          · exact ih _ hlen (Or.inl (Or.inl hCc))

theorem misSerial_resolve (num_rows : ℕ) (Ap Aj : List ℕ) {activeV C F : ℤ}
    (hC : C ≠ activeV) (hF : F ≠ activeV) (x0 : List ℤ)
    (hn : x0.length = num_rows) (j : ℕ) (hj : j < num_rows)
    (hact : x0.getD j 0 = activeV) :
    (maximal_independent_set_serial num_rows Ap Aj activeV C F x0).x.getD j 0 = C ∨
    (maximal_independent_set_serial num_rows Ap Aj activeV C F x0).x.getD j 0 = F := by
  unfold maximal_independent_set_serial
  exact misSerial_resolve_fold Ap Aj hC hF j (List.range num_rows) ⟨x0, 0, []⟩
    (fun m hm => by simpa [hn] using List.mem_range.mp hm)
    (Or.inr ⟨hact, List.mem_range.mpr hj⟩)

theorem misSerial_count_mono (Ap Aj : List ℕ) (activeV C F : ℤ) :
    ∀ (l : List ℕ) (s : MISState),
      s.count ≤ (l.foldl (misSerialStep Ap Aj activeV C F) s).count := by
  intro l
  induction l with
  | nil => intro s; exact le_refl _
  | cons i t ih =>
      intro s
      rw [List.foldl_cons]
      refine le_trans ?_ (ih _)
      unfold misSerialStep
      split
      · exact le_refl _
      · exact Nat.le_succ _

theorem misSerial_progress_fold (Ap Aj : List ℕ) (activeV C F : ℤ) :
    ∀ (l : List ℕ) (s : MISState) (j : ℕ), j ∈ l → s.x.getD j 0 = activeV →
      s.count + 1 ≤ (l.foldl (misSerialStep Ap Aj activeV C F) s).count := by
  intro l
  induction l with
  | nil => intro s j hmem; exact absurd hmem (List.not_mem_nil j)
  | cons i t ih =>
      intro s j hmem hact
      rw [List.foldl_cons]
      by_cases h : s.x.getD i 0 ≠ activeV
      · have hstep : misSerialStep Ap Aj activeV C F s i = s := by
          unfold misSerialStep
          rw [if_pos h]
        rw [hstep]
        rcases List.mem_cons.mp hmem with hji | hjt
        · exact absurd (hji ▸ hact) h
        · exact ih s j hjt hact
      · have hcount : (misSerialStep Ap Aj activeV C F s i).count = s.count + 1 := by
          unfold misSerialStep
          rw [if_neg h]
        calc s.count + 1 = (misSerialStep Ap Aj activeV C F s i).count := hcount.symm
          _ ≤ _ := misSerial_count_mono Ap Aj activeV C F t _

theorem misSerial_progress (num_rows : ℕ) (Ap Aj : List ℕ) (activeV C F : ℤ)
    (x0 : List ℤ) (j : ℕ) (hj : j < num_rows) (hact : x0.getD j 0 = activeV) :
    1 ≤ (maximal_independent_set_serial num_rows Ap Aj activeV C F x0).count := by
  unfold maximal_independent_set_serial
  exact misSerial_progress_fold Ap Aj activeV C F (List.range num_rows) ⟨x0, 0, []⟩
    j (List.mem_range.mpr hj) hact

/-! ## `vertex_coloring_mis` (graph.h:172-188) -/

/-- The `while (N < num_rows)` loop of `vertex_coloring_mis`
(graph.h:182-185): each pass peels one serial MIS with sentinels
`active = -1-K`, `C = K`, `F = -2-K` and increments `K`.  Indexed by
fuel; the guard is checked before the fuel. -/
def vcmLoop (num_rows : ℕ) (Ap Aj : List ℕ) :
    ℕ → List ℤ → ℕ → ℤ → List ℤ × ℤ
  | fuel, x, N, K =>
    if N < num_rows then
      match fuel with
      | 0 => (x, K)
      | fuel' + 1 =>
          vcmLoop num_rows Ap Aj fuel'
            (maximal_independent_set_serial num_rows Ap Aj (-1 - K) K (-2 - K) x).x
            (N + (maximal_independent_set_serial num_rows Ap Aj
              (-1 - K) K (-2 - K) x).count)
            (K + 1)
    else (x, K)

/-- `vertex_coloring_mis` (graph.h:172-188), returning `(x, K)`.  The
loop peels at least one vertex per pass, so `num_rows` passes always
suffice; the fuel is therefore fixed at `num_rows`. -/
def vertex_coloring_mis (num_rows : ℕ) (Ap Aj : List ℕ) : List ℤ × ℤ :=
  vcmLoop num_rows Ap Aj num_rows (List.replicate num_rows (-1)) 0 0

/-- Loop invariant of `vertex_coloring_mis`: vertices are either
coloured in `[0, K)` or carry the current active sentinel `-1-K`; `N`
counts the coloured vertices; coloured neighbours differ. -/
def VCMInv (n : ℕ) (Ap Aj : List ℕ) (x : List ℤ) (N : ℕ) (K : ℤ) : Prop :=
  x.length = n ∧ 0 ≤ K ∧
  (∀ i < n, (0 ≤ x.getD i 0 ∧ x.getD i 0 < K) ∨ x.getD i 0 = -1 - K) ∧
  N = ((Finset.range n).filter (fun i => 0 ≤ x.getD i 0)).card ∧
  (∀ i < n, ∀ j ∈ csrRow Ap Aj i, j ≠ i → 0 ≤ x.getD i 0 →
    x.getD i 0 = x.getD j 0 → False)

/-- Postcondition of `vertex_coloring_mis`: every vertex coloured in
`[0, K)` and adjacent vertices coloured differently. -/
def VCMPost (n : ℕ) (Ap Aj : List ℕ) (r : List ℤ × ℤ) : Prop :=
  (∀ i < n, 0 ≤ r.1.getD i 0 ∧ r.1.getD i 0 < r.2) ∧
  (∀ i < n, ∀ j ∈ csrRow Ap Aj i, j ≠ i → r.1.getD i 0 ≠ r.1.getD j 0)

theorem vcm_exit {n : ℕ} {Ap Aj : List ℕ} {x : List ℤ} {N : ℕ} {K : ℤ}
    (hinv : VCMInv n Ap Aj x N K) (hN : n ≤ N) :
    VCMPost n Ap Aj (x, K) := by
  obtain ⟨hlen, hK, hvals, hcard, hprop⟩ := hinv
  have hall : ∀ i < n, 0 ≤ x.getD i 0 := by
    intro i hi
    have hsub : (Finset.range n).filter (fun i => 0 ≤ x.getD i 0)
        ⊆ Finset.range n := Finset.filter_subset _ _
    have heq : (Finset.range n).filter (fun i => 0 ≤ x.getD i 0)
        = Finset.range n := by
      refine Finset.eq_of_subset_of_card_le hsub ?_
      rw [Finset.card_range, ← hcard]
      exact hN
    have : i ∈ (Finset.range n).filter (fun i => 0 ≤ x.getD i 0) := by
      rw [heq]
      exact Finset.mem_range.mpr hi
    exact (Finset.mem_filter.mp this).2
  constructor
  · intro i hi
    rcases hvals i hi with h | h
    · exact h
    · have := hall i hi
      omega
  · intro i hi j hj hji heq
    exact hprop i hi j hj hji (hall i hi) heq

theorem vcmLoop_spec (n : ℕ) (Ap Aj : List ℕ)
    (hAj : ∀ i < n, ∀ j ∈ csrRow Ap Aj i, j < n)
    (hsym : ∀ i < n, ∀ j < n, j ∈ csrRow Ap Aj i → i ∈ csrRow Ap Aj j) :
    ∀ (fuel : ℕ) (x : List ℤ) (N : ℕ) (K : ℤ),
      VCMInv n Ap Aj x N K → n ≤ N + fuel →
      VCMPost n Ap Aj (vcmLoop n Ap Aj fuel x N K) := by
  intro fuel
  induction fuel with
  | zero =>
      intro x N K hinv hfuel
      unfold vcmLoop
      rw [if_neg (by omega)]
      exact vcm_exit hinv (by omega)
  | succ f ih =>
      intro x N K hinv hfuel
      unfold vcmLoop
      by_cases hN : N < n
      · rw [if_pos hN]
        obtain ⟨hlen, hK, hvals, hcard, hprop⟩ := hinv
        have hCA : K ≠ -1 - K := by omega
        have hFA : (-2 - K : ℤ) ≠ -1 - K := by omega
        have hCFd : K ≠ -2 - K := by omega
        set s := maximal_independent_set_serial n Ap Aj (-1 - K) K (-2 - K) x
          with hs
        obtain ⟨hslen, hscnt, hsnodup, hsprom, hsval, hsC⟩ :=
          misSerial_roundInv n Ap Aj hCA hCFd x hlen
        have hmis : MISInv n Ap Aj (-1 - K) s.x s.promoted := by
          rw [hs]
          exact @misSerial_fold_inv n Ap Aj (-1 - K) K (-2 - K) hCA hFA hAj hsym
            (List.range n) (fun m hm => List.mem_range.mp hm) ⟨x, 0, []⟩
            ⟨hlen, by simp, by simp, by simp⟩
        -- final values of this round, per vertex
        have hv : ∀ i < n,
            (0 ≤ x.getD i 0 ∧ x.getD i 0 < K ∧ s.x.getD i 0 = x.getD i 0) ∨
            (x.getD i 0 = -1 - K ∧
              (s.x.getD i 0 = K ∨ s.x.getD i 0 = -2 - K)) := by
          intro i hi
          rcases hvals i hi with ⟨h0, hK'⟩ | hA
          · left
            refine ⟨h0, hK', ?_⟩
            rcases hsval i with hc | ⟨hA', _⟩
            · exact hc
            · omega
          · right
            exact ⟨hA, misSerial_resolve n Ap Aj hCA hFA x hlen i hi hA⟩
        have hpromC : ∀ i < n, s.x.getD i 0 = K → x.getD i 0 = -1 - K →
            i ∈ s.promoted := by
          intro i _ hsi hxi
          rcases hsC i hsi with h0 | hmem
          · omega
          · exact hmem
        -- the coloured set grows exactly by the promoted vertices
        have hunion : (Finset.range n).filter (fun i => 0 ≤ s.x.getD i 0)
            = ((Finset.range n).filter (fun i => 0 ≤ x.getD i 0))
              ∪ s.promoted.toFinset := by
          ext i
          simp only [Finset.mem_filter, Finset.mem_union, Finset.mem_range,
            List.mem_toFinset]
          constructor
          · rintro ⟨hin, hpos⟩
            rcases hv i hin with ⟨h0, _, hfr⟩ | ⟨hA, hKc | hFc⟩
            · exact Or.inl ⟨hin, h0⟩
            · exact Or.inr (hpromC i hin hKc hA)
            · omega
          · rintro (⟨hin, hpos⟩ | hmem)
            · refine ⟨hin, ?_⟩
              rcases hv i hin with ⟨_, _, hfr⟩ | ⟨hA, _⟩
              · omega
              · omega
            · have hiP := hsprom i hmem
              have hin : i < n := hmis.2.1 i hmem
              refine ⟨hin, ?_⟩
              rw [hiP.1]
              exact hK
        have hdisj : Disjoint
            ((Finset.range n).filter (fun i => 0 ≤ x.getD i 0))
            s.promoted.toFinset := by
          rw [Finset.disjoint_left]
          intro i hi hmem
          have := (Finset.mem_filter.mp hi).2
          have := (hsprom i (List.mem_toFinset.mp hmem)).2
          omega
        have hcard' : N + s.count
            = ((Finset.range n).filter (fun i => 0 ≤ s.x.getD i 0)).card := by
          rw [hunion, Finset.card_union_of_disjoint hdisj, ← hcard, hscnt,
            List.toFinset_card_of_nodup hsnodup]
        have hinv' : VCMInv n Ap Aj s.x (N + s.count) (K + 1) := by
          refine ⟨by rw [hslen]; exact hlen, by omega, ?_, hcard', ?_⟩
          · intro i hi
            rcases hv i hi with ⟨h0, hKlt, hfr⟩ | ⟨hA, hKc | hFc⟩
            · left
              rw [hfr]
              exact ⟨h0, by omega⟩
            · left
              rw [hKc]
              omega
            · right
              omega
          · intro i hi j hj hji hpos heq
            have hjn : j < n := hAj i hi j hj
            rcases hv i hi with ⟨h0i, hKi, hfi⟩ | ⟨hAi, hKci | hFci⟩
            · rcases hv j hjn with ⟨h0j, hKj, hfj⟩ | ⟨hAj', hKcj | hFcj⟩
              · exact hprop i hi j hj hji (by omega) (by omega)
              · omega
              · omega
            · rcases hv j hjn with ⟨h0j, hKj, hfj⟩ | ⟨hAj', hKcj | hFcj⟩
              · omega
              · -- both promoted this round: contradicts MIS independence
                have hiMem := hpromC i hi hKci hAi
                have hjMem := hpromC j hjn hKcj hAj'
                exact hmis.2.2.2 i hiMem j hjMem (fun he => hji he.symm) hj
              · omega
            · omega
        refine ih s.x (N + s.count) (K + 1) hinv' ?_
        -- progress: some vertex is still active, so the MIS is non-empty
        have hex : ∃ jj, jj < n ∧ x.getD jj 0 = -1 - K := by
          by_contra hno
          push_neg at hno
          have hallcol : ∀ i < n, 0 ≤ x.getD i 0 := by
            intro i hi
            rcases hvals i hi with ⟨h0, _⟩ | hA
            · exact h0
            · exact absurd hA (hno i hi)
          have hfull : (Finset.range n).filter (fun i => 0 ≤ x.getD i 0)
              = Finset.range n := by
            refine Finset.eq_of_subset_of_card_le (Finset.filter_subset _ _) ?_
            refine Finset.card_le_card ?_
            intro i hi
            exact Finset.mem_filter.mpr ⟨hi, hallcol i (Finset.mem_range.mp hi)⟩
          rw [hfull, Finset.card_range] at hcard
          omega
        obtain ⟨jj, hjjn, hjjA⟩ := hex
        have hprog := misSerial_progress n Ap Aj (-1 - K) K (-2 - K) x jj hjjn hjjA
        rw [← hs] at hprog
        omega
      · rw [if_neg hN]
        exact vcm_exit ⟨hinv.1, hinv.2.1, hinv.2.2.1, hinv.2.2.2.1,
          hinv.2.2.2.2⟩ (by omega)

/-- **C6.** For every symmetric CSR graph, `vertex_coloring_mis`
returns `K` with every vertex coloured in `[0, K)` and adjacent
vertices coloured differently; on the complete graph `K4` it returns
`K = 4` with the four vertices receiving the four distinct colours
`[0, 1, 2, 3]`. -/
theorem C6_coloring_valid :
    (∀ (n : ℕ) (Ap Aj : List ℕ),
      (∀ i < n, ∀ j ∈ csrRow Ap Aj i, j < n) →
      (∀ i < n, ∀ j < n, j ∈ csrRow Ap Aj i → i ∈ csrRow Ap Aj j) →
      (∀ i < n, 0 ≤ (vertex_coloring_mis n Ap Aj).1.getD i 0 ∧
        (vertex_coloring_mis n Ap Aj).1.getD i 0 < (vertex_coloring_mis n Ap Aj).2) ∧
      (∀ i < n, ∀ j ∈ csrRow Ap Aj i, j ≠ i →
        (vertex_coloring_mis n Ap Aj).1.getD i 0
          ≠ (vertex_coloring_mis n Ap Aj).1.getD j 0)) ∧
    vertex_coloring_mis 4 [0,3,6,9,12] [1,2,3,0,2,3,0,1,3,0,1,2]
      = ([0, 1, 2, 3], 4) := by
  constructor
  · intro n Ap Aj hAj hsym
    have hinit : VCMInv n Ap Aj (List.replicate n (-1)) 0 0 := by
      refine ⟨by simp, le_refl 0, ?_, ?_, ?_⟩
      · intro i hi
        right
        rw [List.getD_eq_getElem?_getD, List.getElem?_replicate, if_pos hi]
        rfl
      · rw [eq_comm, Finset.card_eq_zero, Finset.filter_eq_empty_iff]
        intro i hi
        rw [List.getD_eq_getElem?_getD, List.getElem?_replicate,
          if_pos (Finset.mem_range.mp hi)]
        simp
      · intro i hi j hj hji hpos
        rw [List.getD_eq_getElem?_getD, List.getElem?_replicate, if_pos hi] at hpos
        simp at hpos
    exact vcmLoop_spec n Ap Aj hAj hsym n (List.replicate n (-1)) 0 0 hinit
      (by omega)
  · decide

/-- Witness for C6 on the complete graph `K4`. -/
theorem C6_coloring_valid_witness :
    ((∀ i < 4, ∀ j ∈ csrRow [0,3,6,9,12] [1,2,3,0,2,3,0,1,3,0,1,2] i, j < 4) ∧
      (∀ i < 4, ∀ j < 4, j ∈ csrRow [0,3,6,9,12] [1,2,3,0,2,3,0,1,3,0,1,2] i →
        i ∈ csrRow [0,3,6,9,12] [1,2,3,0,2,3,0,1,3,0,1,2] j)) ∧
    ((∀ i < 4, 0 ≤ (vertex_coloring_mis 4 [0,3,6,9,12]
          [1,2,3,0,2,3,0,1,3,0,1,2]).1.getD i 0 ∧
        (vertex_coloring_mis 4 [0,3,6,9,12] [1,2,3,0,2,3,0,1,3,0,1,2]).1.getD i 0
          < (vertex_coloring_mis 4 [0,3,6,9,12] [1,2,3,0,2,3,0,1,3,0,1,2]).2) ∧
      (∀ i < 4, ∀ j ∈ csrRow [0,3,6,9,12] [1,2,3,0,2,3,0,1,3,0,1,2] i, j ≠ i →
        (vertex_coloring_mis 4 [0,3,6,9,12] [1,2,3,0,2,3,0,1,3,0,1,2]).1.getD i 0
          ≠ (vertex_coloring_mis 4 [0,3,6,9,12]
              [1,2,3,0,2,3,0,1,3,0,1,2]).1.getD j 0)) :=
  ⟨⟨by decide, by decide⟩,
    C6_coloring_valid.1 4 [0,3,6,9,12] [1,2,3,0,2,3,0,1,3,0,1,2]
      (by decide) (by decide)⟩

/-! ## Paths and balls in a CSR graph -/

/-- There is a walk of at most `t` edges from `u` to `v` along CSR
rows: the spec-side notion of unweighted graph distance at most `t`. -/
def pathConn (Ap Aj : List ℕ) (u v : ℕ) (t : ℕ) : Prop :=
  ∃ p : List ℕ, p.length ≤ t ∧
    List.Chain (fun a b => b ∈ csrRow Ap Aj a) u p ∧
    (u :: p).getLast? = some v

/-- The set of vertices within `t` edges of `seed`, as a list:
`B 0 = [seed]`, `B (t+1) = B t ∪ neighbours of B t`. -/
def ballL (Ap Aj : List ℕ) (seed : ℕ) : ℕ → List ℕ
  | 0 => [seed]
  | t + 1 => ballL Ap Aj seed t
      ++ (ballL Ap Aj seed t).flatMap (fun u => csrRow Ap Aj u)

theorem mem_ballL_succ {Ap Aj : List ℕ} {seed : ℕ} {t : ℕ} {v : ℕ} :
    v ∈ ballL Ap Aj seed (t + 1) ↔
      v ∈ ballL Ap Aj seed t ∨ ∃ u ∈ ballL Ap Aj seed t, v ∈ csrRow Ap Aj u := by
  rw [show ballL Ap Aj seed (t + 1)
    = ballL Ap Aj seed t ++ (ballL Ap Aj seed t).flatMap (fun u => csrRow Ap Aj u)
    from rfl]
  simp [List.mem_append, List.mem_flatMap]

theorem ballL_subset_succ {Ap Aj : List ℕ} {seed : ℕ} (t : ℕ) :
    ∀ v ∈ ballL Ap Aj seed t, v ∈ ballL Ap Aj seed (t + 1) := by
  intro v hv
  exact mem_ballL_succ.mpr (Or.inl hv)

theorem ballL_mono {Ap Aj : List ℕ} {seed : ℕ} {s t : ℕ} (h : s ≤ t) :
    ∀ v ∈ ballL Ap Aj seed s, v ∈ ballL Ap Aj seed t := by
  induction t with
  | zero =>
      intro v hv
      rw [Nat.le_zero.mp h] at hv
      exact hv
  | succ t' ih =>
      intro v hv
      rcases Nat.lt_or_ge s (t' + 1) with hlt | hge
      · exact ballL_subset_succ t' v (ih (Nat.lt_succ_iff.mp hlt) v hv)
      · rw [Nat.le_antisymm h hge] at hv
        exact hv

theorem seed_mem_ballL (Ap Aj : List ℕ) (seed : ℕ) (t : ℕ) :
    seed ∈ ballL Ap Aj seed t :=
  ballL_mono (Nat.zero_le t) seed (List.mem_singleton.mpr rfl)

theorem ballL_lt {n : ℕ} {Ap Aj : List ℕ} {seed : ℕ}
    (hAj : ∀ i < n, ∀ j ∈ csrRow Ap Aj i, j < n) (hseed : seed < n) :
    ∀ (t : ℕ), ∀ v ∈ ballL Ap Aj seed t, v < n := by
  intro t
  induction t with
  | zero =>
      intro v hv
      rw [List.mem_singleton.mp hv]
      exact hseed
  | succ t' ih =>
      intro v hv
      rcases mem_ballL_succ.mp hv with h | ⟨u, hu, hvu⟩
      · exact ih v h
      · exact hAj u (ih u hu) v hvu

theorem chain_snoc {r : ℕ → ℕ → Prop} :
    ∀ (u : ℕ) (p : List ℕ) (w : ℕ), List.Chain r u p →
      (u :: p).getLast? = some w → ∀ v, r w v → List.Chain r u (p ++ [v]) := by
  intro u p
  induction p generalizing u with
  | nil =>
      intro w _ hlast v hr
      have hw : u = w := by simpa using hlast
      simp only [List.nil_append]
      exact List.Chain.cons (hw ▸ hr) List.Chain.nil
  | cons a q ih =>
      intro w hch hlast v hr
      rcases List.chain_cons.mp hch with ⟨hua, haq⟩
      refine List.chain_cons.mpr ⟨hua, ih a w haq ?_ v hr⟩
      rwa [List.getLast?_cons_cons] at hlast

theorem chain_unsnoc {r : ℕ → ℕ → Prop} :
    ∀ (u : ℕ) (L : List ℕ) (b : ℕ), List.Chain r u (L ++ [b]) →
      List.Chain r u L ∧ ∃ w, (u :: L).getLast? = some w ∧ r w b := by
  intro u L
  induction L generalizing u with
  | nil =>
      intro b h
      rcases List.chain_cons.mp h with ⟨hub, _⟩
      exact ⟨List.Chain.nil, u, by simp, hub⟩
  | cons a q ih =>
      intro b h
      rcases List.chain_cons.mp h with ⟨hua, hrest⟩
      obtain ⟨hch, w, hlast, hr⟩ := ih a b hrest
      exact ⟨List.chain_cons.mpr ⟨hua, hch⟩, w,
        by rw [List.getLast?_cons_cons]; exact hlast, hr⟩

theorem pathConn_mono {Ap Aj : List ℕ} {u v : ℕ} {s t : ℕ} (h : s ≤ t) :
    pathConn Ap Aj u v s → pathConn Ap Aj u v t := by
  rintro ⟨p, hlen, hch, hlast⟩
  exact ⟨p, le_trans hlen h, hch, hlast⟩

theorem pathConn_of_ballL {Ap Aj : List ℕ} {seed : ℕ} :
    ∀ (t : ℕ), ∀ v ∈ ballL Ap Aj seed t, pathConn Ap Aj seed v t := by
  intro t
  induction t with
  | zero =>
      intro v hv
      rw [List.mem_singleton.mp hv]
      exact ⟨[], by simp, List.Chain.nil, rfl⟩
  | succ t' ih =>
      intro v hv
      rcases mem_ballL_succ.mp hv with h | ⟨u, hu, hvu⟩
      · exact pathConn_mono (Nat.le_succ t') (ih v h)
      · obtain ⟨p, hlen, hch, hlast⟩ := ih u hu
        refine ⟨p ++ [v], by simpa using Nat.succ_le_succ hlen, ?_, ?_⟩
        · exact chain_snoc seed p u hch hlast v hvu
        · rw [show seed :: (p ++ [v]) = (seed :: p) ++ [v] from rfl]
          exact List.getLast?_concat _

theorem ballL_of_pathConn {Ap Aj : List ℕ} {seed : ℕ} :
    ∀ (t : ℕ) (v : ℕ), pathConn Ap Aj seed v t → v ∈ ballL Ap Aj seed t := by
  intro t
  induction t with
  | zero =>
      rintro v ⟨p, hlen, _, hlast⟩
      rw [List.length_eq_zero.mp (Nat.le_zero.mp hlen)] at hlast
      have hv : seed = v := by simpa using hlast
      rw [← hv]
      exact List.mem_singleton.mpr rfl
  | succ t' ih =>
      rintro v ⟨p, hlen, hch, hlast⟩
      rcases List.eq_nil_or_concat p with rfl | ⟨L, b, rfl⟩
      · have hv : seed = v := by simpa using hlast
        rw [← hv]
        exact seed_mem_ballL Ap Aj seed (t' + 1)
      · rw [List.concat_eq_append] at hch hlast hlen
        obtain ⟨hchL, w, hwlast, hedge⟩ := chain_unsnoc seed L b hch
        have hb : b = v := by
          rw [show seed :: (L ++ [b]) = (seed :: L) ++ [b] from rfl,
            List.getLast?_concat] at hlast
          exact Option.some_injective _ hlast
        have hlenL : L.length ≤ t' := by
          simp only [List.length_append, List.length_singleton] at hlen
          omega
        have hu : w ∈ ballL Ap Aj seed t' := ih w ⟨L, hlenL, hchL, hwlast⟩
        rw [← hb]
        exact mem_ballL_succ.mpr (Or.inr ⟨w, hu, hedge⟩)

/-- `v` is at graph distance exactly `t` from `seed`. -/
def distExact (Ap Aj : List ℕ) (seed v t : ℕ) : Prop :=
  v ∈ ballL Ap Aj seed t ∧ ∀ u, v ∈ ballL Ap Aj seed u → t ≤ u

theorem distExact_unique {Ap Aj : List ℕ} {seed v : ℕ} {t t' : ℕ}
    (h : distExact Ap Aj seed v t) (h' : distExact Ap Aj seed v t') : t = t' :=
  le_antisymm (h.2 t' h'.1) (h'.2 t h.1)

theorem distExact_of_reach {Ap Aj : List ℕ} {seed v : ℕ}
    (h : ∃ t, v ∈ ballL Ap Aj seed t) : ∃ t, distExact Ap Aj seed v t := by
  classical
  refine ⟨Nat.find h, Nat.find_spec h, fun u hu => Nat.find_le hu⟩

theorem distExact_seed (Ap Aj : List ℕ) (seed : ℕ) :
    distExact Ap Aj seed seed 0 :=
  ⟨List.mem_singleton.mpr rfl, fun u _ => Nat.zero_le u⟩

theorem distExact_pred {Ap Aj : List ℕ} {seed v : ℕ} {d : ℕ}
    (h : distExact Ap Aj seed v (d + 1)) :
    ∃ u, distExact Ap Aj seed u d ∧ v ∈ csrRow Ap Aj u := by
  obtain ⟨hball, hleast⟩ := h
  rcases mem_ballL_succ.mp hball with hlow | ⟨u, hu, hvu⟩
  · exact absurd (hleast d hlow) (by omega)
  · have hexu : ∃ e, u ∈ ballL Ap Aj seed e := ⟨d, hu⟩
    obtain ⟨e, heu⟩ := distExact_of_reach hexu
    have heu_le : e ≤ d := heu.2 d hu
    rcases Nat.lt_or_ge e d with hlt | hge
    · have : v ∈ ballL Ap Aj seed (e + 1) :=
        mem_ballL_succ.mpr (Or.inr ⟨u, heu.1, hvu⟩)
      exact absurd (hleast (e + 1) this) (by omega)
    · have : e = d := le_antisymm heu_le hge
      exact ⟨u, this ▸ heu, hvu⟩

theorem distExact_descend {Ap Aj : List ℕ} {seed v : ℕ} :
    ∀ (d : ℕ), distExact Ap Aj seed v d → ∀ e ≤ d, ∃ u,
      distExact Ap Aj seed u e := by
  intro d
  induction d generalizing v with
  | zero =>
      intro h e he
      exact ⟨v, Nat.le_zero.mp he ▸ h⟩
  | succ d' ih =>
      intro h e he
      rcases Nat.lt_or_ge e (d' + 1) with hlt | hge
      · obtain ⟨u, hu, _⟩ := distExact_pred h
        exact ih hu e (Nat.lt_succ_iff.mp hlt)
      · exact ⟨v, le_antisymm he hge ▸ h⟩

/-! ## `breadth_first_search` (graph.h:973-1010) -/

/-- State of the BFS loop: the discovery order (grown by appends, so
`order.length` plays the role of `N`), the level array, the current
level window `[levelBegin, levelEnd)` and the level counter. -/
structure BFSState where
  order : List ℕ
  level : List ℤ
  levelBegin : ℕ
  levelEnd : ℕ
  currentLevel : ℕ
deriving Repr, DecidableEq

/-- One neighbour examination of the BFS inner loop (graph.h:996-1001):
append `j` to `order` and set `level[j]` if `j` is unmarked. -/
def bfsMark (cl : ℕ) (t : List ℕ × List ℤ) (j : ℕ) : List ℕ × List ℤ :=
  if t.2.getD j 0 = -1 then (t.1 ++ [j], t.2.set j (cl : ℤ)) else t

/-- Scan all edges of vertex `i` (graph.h:995-1002). -/
def bfsVisit (Ap Aj : List ℕ) (cl : ℕ) (t : List ℕ × List ℤ) (i : ℕ) :
    List ℕ × List ℤ :=
  (csrRow Ap Aj i).foldl (bfsMark cl) t

/-- Process the current level window (graph.h:991-1003): for each
position `ii` in `[lb, le)`, visit the vertex stored at `order[ii]`. -/
def bfsExpand (Ap Aj : List ℕ) (cl : ℕ) (lb le : ℕ)
    (t : List ℕ × List ℤ) : List ℕ × List ℤ :=
  (List.range' lb (le - lb)).foldl
    (fun t ii => bfsVisit Ap Aj cl t (t.1.getD ii 0)) t

/-- The outer `while` loop of `breadth_first_search` (graph.h:989-1008),
indexed by fuel; the guard is checked before the fuel. -/
def bfsLoop (Ap Aj : List ℕ) : ℕ → BFSState → BFSState
  | fuel, s =>
    if s.levelBegin < s.levelEnd then
      match fuel with
      | 0 => s
      | fuel' + 1 =>
          bfsLoop Ap Aj fuel'
            { order := (bfsExpand Ap Aj s.currentLevel s.levelBegin s.levelEnd
                (s.order, s.level)).1,
              level := (bfsExpand Ap Aj s.currentLevel s.levelBegin s.levelEnd
                (s.order, s.level)).2,
              levelBegin := s.levelEnd,
              levelEnd := (bfsExpand Ap Aj s.currentLevel s.levelBegin s.levelEnd
                (s.order, s.level)).1.length,
              currentLevel := s.currentLevel + 1 }
    else s

/-- `breadth_first_search` (graph.h:973-1010): seed the order and level
arrays (graph.h:980-987) and run the level-window loop. -/
def breadth_first_search (Ap Aj : List ℕ) (seed : ℕ) (level : List ℤ)
    (fuel : ℕ) : BFSState :=
  bfsLoop Ap Aj fuel ⟨[seed], level.set seed 0, 0, 1, 1⟩

theorem bfsMarkFold_char (cl : ℕ) :
    ∀ (row : List ℕ) (o : List ℕ) (l : List ℤ),
      ((row.foldl (bfsMark cl) (o, l)).2.length = l.length) ∧
      (∃ new, (row.foldl (bfsMark cl) (o, l)).1 = o ++ new) ∧
      (∀ v, v ∈ (row.foldl (bfsMark cl) (o, l)).1 ↔
        v ∈ o ∨ (l.getD v 0 = -1 ∧ v ∈ row)) ∧
      (∀ v, (row.foldl (bfsMark cl) (o, l)).2.getD v 0 =
        if l.getD v 0 = -1 ∧ v ∈ row then (cl : ℤ) else l.getD v 0) := by
  intro row
  induction row with
  | nil =>
      intro o l
      refine ⟨rfl, ⟨[], by simp⟩, fun v => by simp, fun v => by simp⟩
  | cons j rest ih =>
      intro o l
      rw [List.foldl_cons]
      by_cases hj : l.getD j 0 = -1
      · have hjlt : j < l.length := by
          by_contra hge
          rw [List.getD_eq_getElem?_getD, List.getElem?_eq_none
            (Nat.le_of_not_lt hge)] at hj
          exact absurd hj (by simp)
        have hstep : bfsMark cl (o, l) j = (o ++ [j], l.set j (cl : ℤ)) := by
          unfold bfsMark
          rw [if_pos hj]
        rw [hstep]
        obtain ⟨ihlen, ⟨new, ihnew⟩, ihmem, ihget⟩ := ih (o ++ [j]) (l.set j (cl : ℤ))
        refine ⟨by rw [ihlen, List.length_set], ⟨[j] ++ new, by rw [ihnew, List.append_assoc]⟩,
          ?_, ?_⟩
        · intro v
          rw [ihmem v]
          by_cases hvj : v = j
          · subst hvj
            simp only [List.mem_append, List.mem_singleton, List.mem_cons]
            tauto
          · rw [getD_set_ne l _ _ (fun he => hvj he.symm)]
            simp only [List.mem_append, List.mem_singleton, List.mem_cons]
            tauto
        · intro v
          rw [ihget v]
          by_cases hvj : v = j
          · subst hvj
            rw [getD_set_self l _ _ _ hjlt]
            have hcl : ((cl : ℤ)) ≠ -1 := by omega
            rw [if_neg (fun hc => hcl hc.1), if_pos ⟨hj, List.mem_cons_self v rest⟩]
          · rw [getD_set_ne l _ _ (fun he => hvj he.symm)]
            by_cases hm : l.getD v 0 = -1
            · by_cases hr : v ∈ rest
              · rw [if_pos ⟨hm, hr⟩, if_pos ⟨hm, List.mem_cons_of_mem j hr⟩]
              · rw [if_neg (fun hc => hr hc.2), if_neg (fun hc => ?_)]
                rcases List.mem_cons.mp hc.2 with he | hr'
                · exact hvj he
                · exact hr hr'
            · rw [if_neg (fun hc => hm hc.1), if_neg (fun hc => hm hc.1)]
      · have hstep : bfsMark cl (o, l) j = (o, l) := by
          unfold bfsMark
          rw [if_neg hj]
        rw [hstep]
        obtain ⟨ihlen, ihnew, ihmem, ihget⟩ := ih o l
        refine ⟨ihlen, ihnew, ?_, ?_⟩
        · intro v
          rw [ihmem v]
          by_cases hvj : v = j
          · subst hvj
            simp only [List.mem_cons]
            tauto
          · simp only [List.mem_cons]
            tauto
        · intro v
          rw [ihget v]
          by_cases hvj : v = j
          · subst hvj
            rw [if_neg (fun hc => hj hc.1), if_neg (fun hc => hj hc.1)]
          · by_cases hm : l.getD v 0 = -1
            · by_cases hr : v ∈ rest
              · rw [if_pos ⟨hm, hr⟩, if_pos ⟨hm, List.mem_cons_of_mem j hr⟩]
              · rw [if_neg (fun hc => hr hc.2), if_neg (fun hc => ?_)]
                rcases List.mem_cons.mp hc.2 with he | hr'
                · exact hvj he
                · exact hr hr'
            · rw [if_neg (fun hc => hm hc.1), if_neg (fun hc => hm hc.1)]

theorem bfsMarkFold_marked (cl : ℕ) :
    ∀ (row : List ℕ) (o : List ℕ) (l : List ℤ),
      o.Nodup → (∀ v ∈ o, l.getD v 0 ≠ -1) →
      ((row.foldl (bfsMark cl) (o, l)).1.Nodup ∧
        ∀ v ∈ (row.foldl (bfsMark cl) (o, l)).1,
          (row.foldl (bfsMark cl) (o, l)).2.getD v 0 ≠ -1) := by
  intro row
  induction row with
  | nil =>
      intro o l hnd hmk
      exact ⟨hnd, hmk⟩
  | cons j rest ih =>
      intro o l hnd hmk
      rw [List.foldl_cons]
      by_cases hj : l.getD j 0 = -1
      · have hjlt : j < l.length := by
          by_contra hge
          rw [List.getD_eq_getElem?_getD, List.getElem?_eq_none
            (Nat.le_of_not_lt hge)] at hj
          exact absurd hj (by simp)
        have hstep : bfsMark cl (o, l) j = (o ++ [j], l.set j (cl : ℤ)) := by
          unfold bfsMark
          rw [if_pos hj]
        rw [hstep]
        have hjo : j ∉ o := fun hmem => hmk j hmem hj
        refine ih (o ++ [j]) (l.set j (cl : ℤ)) ?_ ?_
        · simpa [List.nodup_append] using ⟨hnd, hjo⟩
        · intro v hv
          rcases List.mem_append.mp hv with hvo | hvj
          · rw [getD_set_ne l _ _ (fun he => hjo (show j ∈ o by rw [he]; exact hvo))]
            exact hmk v hvo
          · rw [List.mem_singleton.mp hvj, getD_set_self l _ _ _ hjlt]
            omega
      · have hstep : bfsMark cl (o, l) j = (o, l) := by
          unfold bfsMark
          rw [if_neg hj]
        rw [hstep]
        exact ih o l hnd hmk

theorem bfsVisitFold_char (Ap Aj : List ℕ) (cl : ℕ) :
    ∀ (F : List ℕ) (o : List ℕ) (l : List ℤ),
      ((F.foldl (bfsVisit Ap Aj cl) (o, l)).2.length = l.length) ∧
      (∃ new, (F.foldl (bfsVisit Ap Aj cl) (o, l)).1 = o ++ new) ∧
      (∀ v, v ∈ (F.foldl (bfsVisit Ap Aj cl) (o, l)).1 ↔
        v ∈ o ∨ (l.getD v 0 = -1 ∧ ∃ u ∈ F, v ∈ csrRow Ap Aj u)) ∧
      (∀ v, (F.foldl (bfsVisit Ap Aj cl) (o, l)).2.getD v 0 =
        if l.getD v 0 = -1 ∧ ∃ u ∈ F, v ∈ csrRow Ap Aj u
        then (cl : ℤ) else l.getD v 0) := by
  intro F
  induction F with
  | nil =>
      intro o l
      refine ⟨rfl, ⟨[], by simp⟩, fun v => by simp, fun v => by simp⟩
  | cons u rest ih =>
      intro o l
      rw [List.foldl_cons]
      have hstep := bfsMarkFold_char cl (csrRow Ap Aj u) o l
      obtain ⟨slen, ⟨n1, snew⟩, smem, sget⟩ := hstep
      have hufold : bfsVisit Ap Aj cl (o, l) u
          = ((csrRow Ap Aj u).foldl (bfsMark cl) (o, l)) := rfl
      rcases hq : (csrRow Ap Aj u).foldl (bfsMark cl) (o, l) with ⟨o1, l1⟩
      rw [hufold, hq]
      rw [hq] at slen snew smem sget
      dsimp only at slen snew smem sget
      obtain ⟨ihlen, ⟨n2, ihnew⟩, ihmem, ihget⟩ := ih o1 l1
      have hcl : ((cl : ℤ)) ≠ -1 := by omega
      refine ⟨by rw [ihlen, slen], ⟨n1 ++ n2, by rw [ihnew, snew, List.append_assoc]⟩,
        ?_, ?_⟩
      · intro v
        rw [ihmem v, smem v]
        by_cases hm : l.getD v 0 = -1
        · by_cases hu : v ∈ csrRow Ap Aj u
          · have hl1 : l1.getD v 0 = (cl : ℤ) := by
              rw [sget v, if_pos ⟨hm, hu⟩]
            rw [hl1]
            constructor
            · rintro ((h | ⟨_, h⟩) | ⟨hfalse, _⟩)
              · exact Or.inl h
              · exact Or.inr ⟨hm, u, List.mem_cons_self u rest, h⟩
              · exact absurd hfalse hcl
            · rintro (h | _)
              · exact Or.inl (Or.inl h)
              · exact Or.inl (Or.inr ⟨hm, hu⟩)
          · have hl1 : l1.getD v 0 = l.getD v 0 := by
              rw [sget v, if_neg (fun hc => hu hc.2)]
            rw [hl1]
            constructor
            · rintro ((h | ⟨_, hfalse⟩) | ⟨_, w, hw, hvw⟩)
              · exact Or.inl h
              · exact absurd hfalse hu
              · exact Or.inr ⟨hm, w, List.mem_cons_of_mem u hw, hvw⟩
            · rintro (h | ⟨_, w, hw, hvw⟩)
              · exact Or.inl (Or.inl h)
              · rcases List.mem_cons.mp hw with he | hw'
                · exact absurd (show v ∈ csrRow Ap Aj u by rw [← he]; exact hvw) hu
                · exact Or.inr ⟨hm, w, hw', hvw⟩
        · have hl1 : l1.getD v 0 = l.getD v 0 := by
            rw [sget v, if_neg (fun hc => hm hc.1)]
          rw [hl1]
          constructor
          · rintro ((h | ⟨hfalse, _⟩) | ⟨hfalse, _⟩)
            · exact Or.inl h
            · exact absurd hfalse hm
            · exact absurd hfalse hm
          · rintro (h | ⟨hfalse, _⟩)
            · exact Or.inl (Or.inl h)
            · exact absurd hfalse hm
      · intro v
        rw [ihget v]
        by_cases hm : l.getD v 0 = -1
        · by_cases hu : v ∈ csrRow Ap Aj u
          · have hl1 : l1.getD v 0 = (cl : ℤ) := by
              rw [sget v, if_pos ⟨hm, hu⟩]
            rw [hl1]
            rw [if_neg (fun hc => hcl hc.1),
              if_pos ⟨hm, u, List.mem_cons_self u rest, hu⟩]
          · have hl1 : l1.getD v 0 = l.getD v 0 := by
              rw [sget v, if_neg (fun hc => hu hc.2)]
            rw [hl1]
            by_cases hr : ∃ w ∈ rest, v ∈ csrRow Ap Aj w
            · obtain ⟨w, hw, hvw⟩ := hr
              rw [if_pos ⟨hm, w, hw, hvw⟩,
                if_pos ⟨hm, w, List.mem_cons_of_mem u hw, hvw⟩]
            · rw [if_neg (fun hc => hr hc.2), if_neg (fun hc => ?_)]
              obtain ⟨_, w, hw, hvw⟩ := hc
              rcases List.mem_cons.mp hw with he | hw'
              · exact hu (show v ∈ csrRow Ap Aj u by rw [← he]; exact hvw)
              · exact hr ⟨w, hw', hvw⟩
        · have hl1 : l1.getD v 0 = l.getD v 0 := by
            rw [sget v, if_neg (fun hc => hm hc.1)]
          rw [hl1]
          rw [if_neg (fun hc => hm hc.1), if_neg (fun hc => hm hc.1)]

theorem bfsVisitFold_marked (Ap Aj : List ℕ) (cl : ℕ) :
    ∀ (F : List ℕ) (o : List ℕ) (l : List ℤ),
      o.Nodup → (∀ v ∈ o, l.getD v 0 ≠ -1) →
      ((F.foldl (bfsVisit Ap Aj cl) (o, l)).1.Nodup ∧
        ∀ v ∈ (F.foldl (bfsVisit Ap Aj cl) (o, l)).1,
          (F.foldl (bfsVisit Ap Aj cl) (o, l)).2.getD v 0 ≠ -1) := by
  intro F
  induction F with
  | nil =>
      intro o l hnd hmk
      exact ⟨hnd, hmk⟩
  | cons u rest ih =>
      intro o l hnd hmk
      rw [List.foldl_cons]
      have hstep := bfsMarkFold_marked cl (csrRow Ap Aj u) o l hnd hmk
      have hufold : bfsVisit Ap Aj cl (o, l) u
          = ((csrRow Ap Aj u).foldl (bfsMark cl) (o, l)) := rfl
      rcases hq : (csrRow Ap Aj u).foldl (bfsMark cl) (o, l) with ⟨o1, l1⟩
      rw [hufold, hq]
      rw [hq] at hstep
      exact ih o1 l1 hstep.1 hstep.2

theorem slice_append {α : Type} (a b : List α) (k m : ℕ) (h : k + m ≤ a.length) :
    ((a ++ b).drop k).take m = (a.drop k).take m := by
  rw [List.drop_append_eq_append_drop, List.take_append_eq_append_take]
  have h1 : m ≤ (a.drop k).length := by
    rw [List.length_drop]
    omega
  rw [Nat.sub_eq_zero_of_le h1, List.take_zero, List.append_nil]

theorem getD_eq_getElem_of_lt {α : Type} (l : List α) (d : α) {k : ℕ}
    (h : k < l.length) : l.getD k d = l[k] := by
  rw [List.getD_eq_getElem?_getD, List.getElem?_eq_getElem h]
  rfl

theorem drop_eq_getD_cons {α : Type} {l : List α} {d : α} {k : ℕ}
    (h : k < l.length) : l.drop k = l.getD k d :: l.drop (k + 1) := by
  rw [getD_eq_getElem_of_lt l d h]
  exact List.drop_eq_getElem_cons h

theorem bfsExpand_eq_fold (Ap Aj : List ℕ) (cl : ℕ) :
    ∀ (m lb : ℕ) (t : List ℕ × List ℤ), lb + m ≤ t.1.length →
      (List.range' lb m).foldl (fun t ii => bfsVisit Ap Aj cl t (t.1.getD ii 0)) t
        = ((t.1.drop lb).take m).foldl (bfsVisit Ap Aj cl) t := by
  intro m
  induction m with
  | zero => intro lb t _; rfl
  | succ m' ih =>
      intro lb t hlen
      rw [List.range'_succ, List.foldl_cons]
      have hlb : lb < t.1.length := by omega
      rw [drop_eq_getD_cons (d := 0) hlb]
      rw [show (t.1.getD lb 0 :: t.1.drop (lb + 1)).take (m' + 1)
        = t.1.getD lb 0 :: (t.1.drop (lb + 1)).take m' from rfl]
      rw [List.foldl_cons]
      set t1 := bfsVisit Ap Aj cl t (t.1.getD lb 0) with ht1
      obtain ⟨_, ⟨new, hnew⟩, _, _⟩ := bfsVisitFold_char Ap Aj cl
        [t.1.getD lb 0] t.1 t.2
      have ht1new : t1.1 = t.1 ++ new := by
        rw [ht1]
        have : bfsVisit Ap Aj cl t (t.1.getD lb 0)
            = [t.1.getD lb 0].foldl (bfsVisit Ap Aj cl) (t.1, t.2) := rfl
        rw [this, hnew]
      have ht1len : t.1.length ≤ t1.1.length := by
        rw [ht1new, List.length_append]
        omega
      rw [ih (lb + 1) t1 (by omega)]
      congr 1
      rw [ht1new, slice_append t.1 new (lb + 1) m' (by omega)]

theorem nodup_bounded_length {o : List ℕ} {n : ℕ} (hnd : o.Nodup)
    (hbnd : ∀ v ∈ o, v < n) : o.length ≤ n := by
  calc o.length = o.toFinset.card := (List.toFinset_card_of_nodup hnd).symm
    _ ≤ (Finset.range n).card := Finset.card_le_card (fun v hv =>
        Finset.mem_range.mpr (hbnd v (List.mem_toFinset.mp hv)))
    _ = n := Finset.card_range n

/-- Invariant of the BFS level-window loop. -/
def BFSInv (n : ℕ) (Ap Aj : List ℕ) (seed : ℕ) (s : BFSState) : Prop :=
  s.levelEnd = s.order.length ∧
  s.levelBegin ≤ s.levelEnd ∧
  1 ≤ s.currentLevel ∧
  s.level.length = n ∧
  s.order.Nodup ∧
  (∀ v ∈ s.order, v < n) ∧
  (∀ v < n, (v ∈ s.order ↔ s.level.getD v 0 ≠ -1)) ∧
  (∀ v < n, (v ∈ s.order ↔ v ∈ ballL Ap Aj seed (s.currentLevel - 1))) ∧
  (∀ v, v ∈ s.order.drop s.levelBegin ↔
    (v < n ∧ distExact Ap Aj seed v (s.currentLevel - 1))) ∧
  (∀ v < n, ∀ t : ℕ, distExact Ap Aj seed v t → v ∈ s.order →
    s.level.getD v 0 = (t : ℤ))

/-- Postcondition of `breadth_first_search`. -/
def BFSPost (n : ℕ) (Ap Aj : List ℕ) (seed : ℕ) (s : BFSState) : Prop :=
  (∀ v < n, ∀ t : ℕ, IsLeast {e : ℕ | pathConn Ap Aj seed v e} t →
    s.level.getD v 0 = (t : ℤ)) ∧
  s.level.getD seed 0 = 0 ∧
  (∀ v < n, (v ∈ s.order ↔ ∃ t, pathConn Ap Aj seed v t)) ∧
  s.order.Nodup ∧
  (∀ v < n, (¬ ∃ t, pathConn Ap Aj seed v t) → s.level.getD v 0 = -1)

theorem bfs_exit {n : ℕ} {Ap Aj : List ℕ} {seed : ℕ}
    (hAj : ∀ i < n, ∀ j ∈ csrRow Ap Aj i, j < n) (hseed : seed < n)
    {s : BFSState} (hinv : BFSInv n Ap Aj seed s)
    (hguard : ¬ s.levelBegin < s.levelEnd) : BFSPost n Ap Aj seed s := by
  obtain ⟨hle, hlble, hcl1, hlen, hnd, hbnd, hmark, hball, hfront, hlevval⟩ := hinv
  have hnone : ∀ v, ¬ (v < n ∧ distExact Ap Aj seed v (s.currentLevel - 1)) := by
    intro v hv
    have hmem : v ∈ s.order.drop s.levelBegin := (hfront v).mpr hv
    rw [List.drop_eq_nil_iff.mpr (by omega)] at hmem
    exact absurd hmem (List.not_mem_nil v)
  have hreach_in : ∀ v < n, (∃ t, v ∈ ballL Ap Aj seed t) → v ∈ s.order := by
    intro v hvn hex
    obtain ⟨d, hd⟩ := distExact_of_reach hex
    have hdlt : d < s.currentLevel - 1 := by
      by_contra hge
      push_neg at hge
      obtain ⟨u, hu⟩ := distExact_descend d hd (s.currentLevel - 1) hge
      exact hnone u ⟨ballL_lt hAj hseed _ u hu.1, hu⟩
    exact (hball v hvn).mpr (ballL_mono (by omega) v hd.1)
  have hdist_of_least : ∀ v t, IsLeast {e : ℕ | pathConn Ap Aj seed v e} t →
      distExact Ap Aj seed v t := by
    intro v t htle
    exact ⟨ballL_of_pathConn t v htle.1,
      fun u hu => htle.2 (pathConn_of_ballL u v hu)⟩
  refine ⟨?_, ?_, ?_, hnd, ?_⟩
  · intro v hvn t htle
    have hd := hdist_of_least v t htle
    exact hlevval v hvn t hd (hreach_in v hvn ⟨t, hd.1⟩)
  · have h0 := hlevval seed hseed 0 (distExact_seed Ap Aj seed)
      (hreach_in seed hseed ⟨0, (distExact_seed Ap Aj seed).1⟩)
    simpa using h0
  · intro v hvn
    constructor
    · intro hmem
      exact ⟨s.currentLevel - 1, pathConn_of_ballL _ v ((hball v hvn).mp hmem)⟩
    · rintro ⟨t, hp⟩
      exact hreach_in v hvn ⟨t, ballL_of_pathConn t v hp⟩
  · intro v hvn hnr
    by_contra hne
    have hmem : v ∈ s.order := (hmark v hvn).mpr hne
    exact hnr ⟨s.currentLevel - 1, pathConn_of_ballL _ v ((hball v hvn).mp hmem)⟩

theorem bfsLoop_spec (n : ℕ) (Ap Aj : List ℕ) (seed : ℕ)
    (hAj : ∀ i < n, ∀ j ∈ csrRow Ap Aj i, j < n) (hseed : seed < n) :
    ∀ (fuel : ℕ) (s : BFSState), BFSInv n Ap Aj seed s →
      n ≤ fuel + s.levelBegin →
      BFSPost n Ap Aj seed (bfsLoop Ap Aj fuel s) := by
  intro fuel
  induction fuel with
  | zero =>
      intro s hinv hfuel
      unfold bfsLoop
      have hguard : ¬ s.levelBegin < s.levelEnd := by
        have h1 : s.order.length ≤ n := nodup_bounded_length hinv.2.2.2.2.1
          hinv.2.2.2.2.2.1
        have h2 := hinv.1
        omega
      rw [if_neg hguard]
      exact bfs_exit hAj hseed hinv hguard
  | succ f ih =>
      intro s hinv hfuel
      unfold bfsLoop
      by_cases hguard : s.levelBegin < s.levelEnd
      · rw [if_pos hguard]
        obtain ⟨hle, hlble, hcl1, hlen, hnd, hbnd, hmark, hball, hfront, hlevval⟩ :=
          hinv
        obtain ⟨e, hcl⟩ : ∃ e, s.currentLevel = e + 1 :=
          ⟨s.currentLevel - 1, by omega⟩
        have hexpand : bfsExpand Ap Aj s.currentLevel s.levelBegin s.levelEnd
            (s.order, s.level)
            = (s.order.drop s.levelBegin).foldl (bfsVisit Ap Aj s.currentLevel)
              (s.order, s.level) := by
          unfold bfsExpand
          rw [bfsExpand_eq_fold Ap Aj s.currentLevel
            (s.levelEnd - s.levelBegin) s.levelBegin (s.order, s.level)
            (by dsimp only; omega)]
          congr 1
          have hlen' : (s.order.drop s.levelBegin).length
              = s.levelEnd - s.levelBegin := by
            rw [List.length_drop, ← hle]
          rw [← hlen', List.take_length]
        have hF : ∀ u ∈ s.order.drop s.levelBegin,
            u < n ∧ distExact Ap Aj seed u (s.currentLevel - 1) :=
          fun u hu => (hfront u).mp hu
        obtain ⟨clen, ⟨new, cnew⟩, cmem, cget⟩ := bfsVisitFold_char Ap Aj
          s.currentLevel (s.order.drop s.levelBegin) s.order s.level
        obtain ⟨nodup', marks'⟩ := bfsVisitFold_marked Ap Aj s.currentLevel
          (s.order.drop s.levelBegin) s.order s.level hnd
          (fun v hv => (hmark v (hbnd v hv)).mp hv)
        have hkey : ∀ v, (s.level.getD v 0 = -1 ∧
            ∃ u ∈ s.order.drop s.levelBegin, v ∈ csrRow Ap Aj u) ↔
            (v < n ∧ distExact Ap Aj seed v s.currentLevel) := by
          intro v
          constructor
          · rintro ⟨hm, u, hu, hvu⟩
            obtain ⟨hun, hud⟩ := hF u hu
            have hvn : v < n := hAj u hun v hvu
            have hnb : v ∉ ballL Ap Aj seed (s.currentLevel - 1) := by
              intro hb
              have hmem := (hball v hvn).mpr hb
              exact ((hmark v hvn).mp hmem) hm
            refine ⟨hvn, ?_, ?_⟩
            · rw [hcl]
              exact mem_ballL_succ.mpr (Or.inr ⟨u,
                by rw [show e = s.currentLevel - 1 from by omega]; exact hud.1, hvu⟩)
            · intro w hw
              by_contra hlt
              push_neg at hlt
              exact hnb (ballL_mono (by omega) v hw)
          · rintro ⟨hvn, hd⟩
            have hnb : v ∉ ballL Ap Aj seed (s.currentLevel - 1) := by
              intro hb
              have := hd.2 _ hb
              omega
            have hnotmem : v ∉ s.order := fun hmem => hnb ((hball v hvn).mp hmem)
            have hm : s.level.getD v 0 = -1 := by
              by_contra hne
              exact hnotmem ((hmark v hvn).mpr hne)
            have hd' : distExact Ap Aj seed v (e + 1) := hcl ▸ hd
            obtain ⟨u, hu, hvu⟩ := distExact_pred hd'
            have hun : u < n := ballL_lt hAj hseed _ u hu.1
            have huF : u ∈ s.order.drop s.levelBegin := (hfront u).mpr
              ⟨hun, by rw [show s.currentLevel - 1 = e from by omega]; exact hu⟩
            exact ⟨hm, u, huF, hvu⟩
        refine ih _ ?_ ?_
        · rw [hexpand]
          rcases hq : (s.order.drop s.levelBegin).foldl
            (bfsVisit Ap Aj s.currentLevel) (s.order, s.level) with ⟨o2, l2⟩
          rw [hq] at clen cnew cmem cget nodup' marks'
          dsimp only at clen cnew cmem cget nodup' marks'
          have hmemiff : ∀ v, v ∈ o2 ↔ v ∈ s.order ∨
              (v < n ∧ distExact Ap Aj seed v s.currentLevel) := by
            intro v
            rw [cmem v]
            constructor
            · rintro (h | h)
              · exact Or.inl h
              · exact Or.inr ((hkey v).mp h)
            · rintro (h | h)
              · exact Or.inl h
              · exact Or.inr ((hkey v).mpr h)
          have hgetval1 : ∀ v, (v < n ∧ distExact Ap Aj seed v s.currentLevel) →
              l2.getD v 0 = (s.currentLevel : ℤ) := by
            intro v hv
            rw [cget v, if_pos ((hkey v).mpr hv)]
          have hgetval2 : ∀ v, ¬ (v < n ∧ distExact Ap Aj seed v s.currentLevel) →
              l2.getD v 0 = s.level.getD v 0 := by
            intro v hv
            rw [cget v, if_neg (fun hc => hv ((hkey v).mp hc))]
          show BFSInv n Ap Aj seed ⟨o2, l2, s.levelEnd, o2.length,
            s.currentLevel + 1⟩
          unfold BFSInv
          dsimp only
          rw [Nat.add_sub_cancel]
          refine ⟨rfl, ?_, by omega, by rw [clen]; exact hlen, nodup', ?_, ?_,
            ?_, ?_, ?_⟩
          · rw [cnew, List.length_append]
            omega
          · intro v hv
            rcases (hmemiff v).mp hv with h | h
            · exact hbnd v h
            · exact h.1
          · intro v hvn
            constructor
            · intro hmem
              exact marks' v hmem
            · intro hne
              by_cases hP : v < n ∧ distExact Ap Aj seed v s.currentLevel
              · exact (hmemiff v).mpr (Or.inr hP)
              · rw [hgetval2 v hP] at hne
                exact (hmemiff v).mpr (Or.inl ((hmark v hvn).mpr hne))
          · intro v hvn
            rw [hmemiff v]
            constructor
            · rintro (h | h)
              · exact ballL_mono (by omega) v ((hball v hvn).mp h)
              · have := h.2.1
                simpa using this
            · intro hb
              obtain ⟨d, hd⟩ := distExact_of_reach ⟨_, hb⟩
              have hdle : d ≤ s.currentLevel := hd.2 _ hb
              rcases Nat.lt_or_ge d s.currentLevel with hlt | hge
              · exact Or.inl ((hball v hvn).mpr (ballL_mono (by omega) v hd.1))
              · exact Or.inr ⟨hvn,
                  by rw [show s.currentLevel = d from by omega]; exact hd⟩
          · intro v
            have hdrop : o2.drop s.levelEnd = new := by
              rw [cnew, hle, List.drop_left]
            rw [hdrop]
            constructor
            · intro hmem
              have hmemo2 : v ∈ o2 := by
                rw [cnew]
                exact List.mem_append.mpr (Or.inr hmem)
              have hnotold : v ∉ s.order := by
                intro hold
                have : ¬ (o2.Nodup) := by
                  rw [cnew]
                  intro hndup
                  rw [List.nodup_append] at hndup
                  exact hndup.2.2 hold hmem
                exact this nodup'
              rcases (hmemiff v).mp hmemo2 with h | h
              · exact absurd h hnotold
              · simpa using h
            · intro hv
              have hm := (hkey v).mpr (by simpa using hv)
              have hmemo2 : v ∈ o2 := (cmem v).mpr (Or.inr hm)
              rw [cnew] at hmemo2
              rcases List.mem_append.mp hmemo2 with hold | hnew
              · exact absurd hm.1 ((hmark v hv.1).mp hold)
              · exact hnew
          · intro v hvn t hdt hmem
            by_cases hP : v < n ∧ distExact Ap Aj seed v s.currentLevel
            · rw [hgetval1 v hP, distExact_unique hdt hP.2]
            · rw [hgetval2 v hP]
              rcases (hmemiff v).mp hmem with h | h
              · exact hlevval v hvn t hdt h
              · exact absurd h hP
        · show n ≤ f + s.levelEnd
          omega
      · rw [if_neg hguard]
        exact bfs_exit hAj hseed
          ⟨hinv.1, hinv.2.1, hinv.2.2.1, hinv.2.2.2.1, hinv.2.2.2.2.1,
            hinv.2.2.2.2.2.1, hinv.2.2.2.2.2.2.1, hinv.2.2.2.2.2.2.2.1,
            hinv.2.2.2.2.2.2.2.2.1, hinv.2.2.2.2.2.2.2.2.2⟩ hguard

/-- C5: for every graph whose rows stay inside `[0, n)`, every seed
vertex, and a level array pre-filled with `-1`, after
`breadth_first_search` returns (with fuel at least `n`): every vertex
at shortest-path distance `t` from the seed has `level = t` (so the
seed has `level = 0`), `order` lists exactly the reachable vertices
with no duplicates, and every unreachable vertex keeps `level = -1`
(hence, by the membership equivalence, is absent from `order`). -/
theorem C5_bfs_correct (n : ℕ) (Ap Aj : List ℕ) (seed : ℕ) (level : List ℤ)
    (fuel : ℕ)
    (hAj : ∀ i < n, ∀ j ∈ csrRow Ap Aj i, j < n)
    (hseed : seed < n)
    (hlen : level.length = n)
    (hlev : ∀ v < n, level.getD v 0 = -1)
    (hfuel : n ≤ fuel) :
    (∀ v < n, ∀ t : ℕ, IsLeast {e : ℕ | pathConn Ap Aj seed v e} t →
      (breadth_first_search Ap Aj seed level fuel).level.getD v 0 = (t : ℤ)) ∧
    (breadth_first_search Ap Aj seed level fuel).level.getD seed 0 = 0 ∧
    (∀ v < n, (v ∈ (breadth_first_search Ap Aj seed level fuel).order ↔
      ∃ t, pathConn Ap Aj seed v t)) ∧
    (breadth_first_search Ap Aj seed level fuel).order.Nodup ∧
    (∀ v < n, (¬ ∃ t, pathConn Ap Aj seed v t) →
      (breadth_first_search Ap Aj seed level fuel).level.getD v 0 = -1) := by
  have hinv : BFSInv n Ap Aj seed ⟨[seed], level.set seed 0, 0, 1, 1⟩ := by
    unfold BFSInv
    dsimp only
    rw [Nat.sub_self]
    refine ⟨rfl, by omega, by omega, by rw [List.length_set]; exact hlen,
      List.nodup_singleton seed, ?_, ?_, ?_, ?_, ?_⟩
    · intro v hv
      rw [List.mem_singleton.mp hv]
      exact hseed
    · intro v hvn
      constructor
      · intro hv
        rw [List.mem_singleton.mp hv,
          getD_set_self level seed 0 0 (by rw [hlen]; exact hseed)]
        decide
      · intro hne
        by_contra hvs
        have hne' : seed ≠ v := by
          intro h
          exact hvs (by rw [← h]; exact List.mem_singleton.mpr rfl)
        rw [getD_set_ne level (0 : ℤ) (0 : ℤ) hne'] at hne
        exact hne (hlev v hvn)
    · intro v _
      exact Iff.rfl
    · intro v
      rw [List.drop_zero]
      constructor
      · intro hv
        rw [List.mem_singleton.mp hv]
        exact ⟨hseed, distExact_seed Ap Aj seed⟩
      · rintro ⟨_, hd⟩
        exact hd.1
    · intro v hvn t hdt hv
      rw [List.mem_singleton.mp hv] at hdt ⊢
      rw [getD_set_self level seed 0 0 (by rw [hlen]; exact hseed),
        distExact_unique hdt (distExact_seed Ap Aj seed)]
      simp
  have hpost := bfsLoop_spec n Ap Aj seed hAj hseed fuel
    ⟨[seed], level.set seed 0, 0, 1, 1⟩ hinv (show n ≤ fuel + 0 by omega)
  exact hpost

/-- Witness for C5 on the graph with edges 0-1, 0-2, 2-3, seed 0. -/
theorem C5_bfs_correct_witness :
    (∀ v < 4, ∀ t : ℕ,
      IsLeast {e : ℕ | pathConn [0, 2, 3, 5, 6] [1, 2, 0, 0, 3, 2] 0 v e} t →
      (breadth_first_search [0, 2, 3, 5, 6] [1, 2, 0, 0, 3, 2] 0
        [-1, -1, -1, -1] 4).level.getD v 0 = (t : ℤ)) ∧
    (breadth_first_search [0, 2, 3, 5, 6] [1, 2, 0, 0, 3, 2] 0
      [-1, -1, -1, -1] 4).level.getD 0 0 = 0 ∧
    (∀ v < 4, (v ∈ (breadth_first_search [0, 2, 3, 5, 6] [1, 2, 0, 0, 3, 2] 0
      [-1, -1, -1, -1] 4).order ↔
      ∃ t, pathConn [0, 2, 3, 5, 6] [1, 2, 0, 0, 3, 2] 0 v t)) ∧
    (breadth_first_search [0, 2, 3, 5, 6] [1, 2, 0, 0, 3, 2] 0
      [-1, -1, -1, -1] 4).order.Nodup ∧
    (∀ v < 4, (¬ ∃ t, pathConn [0, 2, 3, 5, 6] [1, 2, 0, 0, 3, 2] 0 v t) →
      (breadth_first_search [0, 2, 3, 5, 6] [1, 2, 0, 0, 3, 2] 0
        [-1, -1, -1, -1] 4).level.getD v 0 = -1) :=
  C5_bfs_correct 4 [0, 2, 3, 5, 6] [1, 2, 0, 0, 3, 2] 0 [-1, -1, -1, -1] 4
    (by decide) (by decide) (by decide) (by decide) (by decide)

/-! ## More path lemmas, for `maximal_independent_set_k_parallel` -/

theorem getD_map_range {α : Type} (g : ℕ → α) (n p : ℕ) (d : α)
    (h : p < n) : ((List.range n).map g).getD p d = g p := by
  rw [List.getD_eq_getElem?_getD, List.getElem?_map, List.getElem?_range h]
  rfl

theorem getD_range (n p : ℕ) (h : p < n) : (List.range n).getD p 0 = p := by
  rw [List.getD_eq_getElem?_getD, List.getElem?_range h]
  rfl

theorem getD_replicate {α : Type} (a d : α) {n i : ℕ} (h : i < n) :
    (List.replicate n a).getD i d = a := by
  rw [List.getD_eq_getElem?_getD, List.getElem?_replicate, if_pos h]
  rfl

theorem pathConn_refl (Ap Aj : List ℕ) (p t : ℕ) : pathConn Ap Aj p p t :=
  ⟨[], by simp, List.Chain.nil, rfl⟩

theorem pathConn_step {Ap Aj : List ℕ} {p j τ t : ℕ}
    (hj : j ∈ csrRow Ap Aj p) (h : pathConn Ap Aj j τ t) :
    pathConn Ap Aj p τ (t + 1) := by
  obtain ⟨q, hlen, hch, hlast⟩ := h
  refine ⟨j :: q, by simpa using Nat.succ_le_succ hlen,
    List.chain_cons.mpr ⟨hj, hch⟩, ?_⟩
  rw [List.getLast?_cons_cons]
  exact hlast

theorem pathConn_cases {Ap Aj : List ℕ} {p τ t : ℕ}
    (h : pathConn Ap Aj p τ (t + 1)) :
    τ = p ∨ ∃ j ∈ csrRow Ap Aj p, pathConn Ap Aj j τ t := by
  obtain ⟨q, hlen, hch, hlast⟩ := h
  cases q with
  | nil =>
      rw [List.getLast?_singleton] at hlast
      exact Or.inl (Option.some.inj hlast).symm
  | cons j q2 =>
      rcases List.chain_cons.mp hch with ⟨hj, hch2⟩
      have hlen2 : q2.length ≤ t := by
        have : q2.length + 1 ≤ t + 1 := by simpa using hlen
        omega
      rw [List.getLast?_cons_cons] at hlast
      exact Or.inr ⟨j, hj, q2, hlen2, hch2, hlast⟩

theorem pathConn_lt {n : ℕ} {Ap Aj : List ℕ}
    (hAj : ∀ i < n, ∀ j ∈ csrRow Ap Aj i, j < n)
    {p : ℕ} (hp : p < n) {τ t : ℕ} (h : pathConn Ap Aj p τ t) : τ < n :=
  ballL_lt hAj hp t τ (ballL_of_pathConn t τ h)

theorem pathConn_rev {n : ℕ} {Ap Aj : List ℕ}
    (hAj : ∀ i < n, ∀ j ∈ csrRow Ap Aj i, j < n)
    (hsym : ∀ i < n, ∀ j ∈ csrRow Ap Aj i, i ∈ csrRow Ap Aj j) :
    ∀ (q : List ℕ) (p τ t : ℕ), p < n → q.length ≤ t →
      List.Chain (fun a b => b ∈ csrRow Ap Aj a) p q →
      (p :: q).getLast? = some τ → pathConn Ap Aj τ p t := by
  intro q
  induction q with
  | nil =>
      intro p τ t hp _ _ hlast
      rw [List.getLast?_singleton] at hlast
      rw [← Option.some.inj hlast]
      exact pathConn_refl Ap Aj p t
  | cons j q2 ih =>
      intro p τ t hp hlen hch hlast
      rcases List.chain_cons.mp hch with ⟨hj, hch2⟩
      have hjn : j < n := hAj p hp j hj
      have hlen2 : q2.length + 1 ≤ t := by simpa using hlen
      rw [List.getLast?_cons_cons] at hlast
      obtain ⟨w, hwlen, hwch, hwlast⟩ :=
        ih j τ (t - 1) hjn (by omega) hch2 hlast
      refine ⟨w ++ [p], by simp; omega, ?_, ?_⟩
      · exact chain_snoc τ w j hwch hwlast p (hsym p hp j hj)
      · rw [show τ :: (w ++ [p]) = (τ :: w) ++ [p] from rfl]
        exact List.getLast?_concat _

theorem pathConn_symm {n : ℕ} {Ap Aj : List ℕ}
    (hAj : ∀ i < n, ∀ j ∈ csrRow Ap Aj i, j < n)
    (hsym : ∀ i < n, ∀ j ∈ csrRow Ap Aj i, i ∈ csrRow Ap Aj j)
    {p τ t : ℕ} (hp : p < n) (h : pathConn Ap Aj p τ t) :
    pathConn Ap Aj τ p t := by
  obtain ⟨q, hlen, hch, hlast⟩ := h
  exact pathConn_rev hAj hsym q p τ t hp hlen hch hlast

/-- The order used by `csr_propagate_max` to compare `(key, value)`
pairs: greater value wins, ties broken towards the greater key. -/
def lexLE (a b : ℕ × ℚ) : Prop :=
  a.2 < b.2 ∨ (a.2 = b.2 ∧ a.1 ≤ b.1)

theorem lexLE_refl (a : ℕ × ℚ) : lexLE a a := Or.inr ⟨rfl, le_refl a.1⟩

theorem lexLE_trans {a b c : ℕ × ℚ} (h1 : lexLE a b) (h2 : lexLE b c) :
    lexLE a c := by
  rcases h1 with h1 | ⟨h1v, h1k⟩
  · rcases h2 with h2 | ⟨h2v, h2k⟩
    · exact Or.inl (lt_trans h1 h2)
    · exact Or.inl (h2v ▸ h1)
  · rcases h2 with h2 | ⟨h2v, h2k⟩
    · exact Or.inl (h1v ▸ h2)
    · exact Or.inr ⟨h1v.trans h2v, le_trans h1k h2k⟩

theorem lexLE_antisymm {a b : ℕ × ℚ} (h1 : lexLE a b) (h2 : lexLE b a) :
    a = b := by
  rcases a with ⟨ak, av⟩
  rcases b with ⟨bk, bv⟩
  rcases h1 with h1 | ⟨h1v, h1k⟩ <;> rcases h2 with h2 | ⟨h2v, h2k⟩ <;>
    dsimp only at *
  · exact absurd h2 (lt_asymm h1)
  · exact absurd h2v (ne_of_gt h1)
  · exact absurd h1v (ne_of_gt h2)
  · rw [h1v, le_antisymm h1k h2k]

/-! ## `csr_propagate_max` (graph.h:836-865) and
`maximal_independent_set_k_parallel` (graph.h:886-955) -/

/-- One neighbour comparison of `csr_propagate_max` (graph.h:849-860):
combine the running pair `p = (k_max, v_max)` with the pair stored at
vertex `j`; equal keys are skipped, otherwise the pair with the
greater value (key as tiebreak) is kept. -/
def cpmScan (i_keys : List ℕ) (i_vals : List ℚ) (p : ℕ × ℚ) (j : ℕ) :
    ℕ × ℚ :=
  if i_keys.getD j 0 = p.1 then p
  else if i_vals.getD j 0 < p.2 then p
  else if p.2 < i_vals.getD j 0 ∨ p.1 < i_keys.getD j 0 then
    (i_keys.getD j 0, i_vals.getD j 0)
  else p

/-- The pair computed for row `i` by `csr_propagate_max`
(graph.h:846-860). -/
def cpmRow (Ap Aj : List ℕ) (i_keys : List ℕ) (i_vals : List ℚ)
    (i : ℕ) : ℕ × ℚ :=
  (csrRow Ap Aj i).foldl (cpmScan i_keys i_vals)
    (i_keys.getD i 0, i_vals.getD i 0)

/-- `csr_propagate_max` (graph.h:836-865): each vertex selects, among
its own pair and its neighbours' pairs, the one with the greatest
value, ties broken towards the greater key. -/
def csr_propagate_max (n : ℕ) (Ap Aj : List ℕ) (i_keys : List ℕ)
    (i_vals : List ℚ) : List ℕ × List ℚ :=
  ((List.range n).map (fun i => (cpmRow Ap Aj i_keys i_vals i).1),
   (List.range n).map (fun i => (cpmRow Ap Aj i_keys i_vals i).2))

/-- `k` propagate-and-swap steps (graph.h:908-912 and 931-936). -/
def cpmIter (n : ℕ) (Ap Aj : List ℕ) :
    ℕ → List ℕ × List ℚ → List ℕ × List ℚ
  | 0, kv => kv
  | t + 1, kv => cpmIter n Ap Aj t (csr_propagate_max n Ap Aj kv.1 kv.2)

/-- State of `maximal_independent_set_k_parallel`: the output flags
`x`, the `active` mask and the current `(i_keys, i_vals)` arrays. -/
structure MISKState where
  x : List ℤ
  active : List Bool
  keys : List ℕ
  vals : List ℚ
deriving Repr, DecidableEq

/-- The promotion sweep of graph.h:914-917: after `k` propagations of
the `(index, y)` pairs, a still-active vertex whose propagated key is
its own index is promoted to the MIS-k. -/
def miskX1 (n k : ℕ) (Ap Aj : List ℕ) (s : MISKState) : List ℤ :=
  (List.range n).map (fun i =>
    if (cpmIter n Ap Aj k (s.keys, s.vals)).1.getD i 0 = i ∧
        s.active.getD i false = true then (1 : ℤ)
    else s.x.getD i 0)

/-- The value array after the second propagation phase
(graph.h:919-936): keys are reset to the indices, values to the new
`x`, and `k` further propagations are run. -/
def miskV3 (n k : ℕ) (Ap Aj : List ℕ) (s : MISKState) : List ℚ :=
  (cpmIter n Ap Aj k (List.range n,
    (List.range n).map (fun i => ((miskX1 n k Ap Aj s).getD i 0 : ℚ)))).2

/-- One iteration of the outer loop of
`maximal_independent_set_k_parallel` (graph.h:907-953): promotion of
still-active local maxima, propagation of the promotion flags, and
deactivation of every vertex that saw a promoted vertex within
distance `k` (graph.h:940-949); also returns the `work_left` flag. -/
def miskRound (n k : ℕ) (Ap Aj : List ℕ) (y : List ℚ) (s : MISKState) :
    MISKState × Bool :=
  (⟨miskX1 n k Ap Aj s,
    (List.range n).map (fun i =>
      if (miskV3 n k Ap Aj s).getD i 0 = 1 then false
      else s.active.getD i false),
    List.range n,
    (List.range n).map (fun i =>
      if (miskV3 n k Ap Aj s).getD i 0 = 1 then (-1 : ℚ)
      else y.getD i 0)⟩,
   (List.range n).any (fun i => decide ((miskV3 n k Ap Aj s).getD i 0 ≠ 1)))

/-- The outer loop of graph.h:907-953 with `max_iters = -1`: iterate
rounds until one reports no work left (or the fuel runs out). -/
def miskLoop (n k : ℕ) (Ap Aj : List ℕ) (y : List ℚ) :
    ℕ → MISKState → MISKState
  | 0, s => s
  | fuel + 1, s =>
      if (miskRound n k Ap Aj y s).2 = true then
        miskLoop n k Ap Aj y fuel (miskRound n k Ap Aj y s).1
      else (miskRound n k Ap Aj y s).1

/-- `maximal_independent_set_k_parallel` (graph.h:886-955) with
`max_iters = -1`: initialise `x = 0`, all vertices active,
`i_keys[i] = i`, `i_vals[i] = y[i]` (graph.h:901-905), then loop. -/
def maximal_independent_set_k_parallel (n : ℕ) (Ap Aj : List ℕ)
    (k : ℕ) (y : List ℚ) (fuel : ℕ) : MISKState :=
  miskLoop n k Ap Aj y fuel
    ⟨List.replicate n 0, List.replicate n true, List.range n,
      (List.range n).map (fun i => y.getD i 0)⟩

theorem cpmScan_spec (i_keys : List ℕ) (i_vals : List ℚ) (p : ℕ × ℚ)
    (j : ℕ)
    (hkey : i_keys.getD j 0 = p.1 →
      (i_keys.getD j 0, i_vals.getD j 0) = p) :
    (cpmScan i_keys i_vals p j = p ∨
      cpmScan i_keys i_vals p j = (i_keys.getD j 0, i_vals.getD j 0)) ∧
    lexLE p (cpmScan i_keys i_vals p j) ∧
    lexLE (i_keys.getD j 0, i_vals.getD j 0)
      (cpmScan i_keys i_vals p j) := by
  unfold cpmScan
  split_ifs with h1 h2 h3
  · exact ⟨Or.inl rfl, lexLE_refl p, by rw [hkey h1]; exact lexLE_refl p⟩
  · exact ⟨Or.inl rfl, lexLE_refl p, Or.inl h2⟩
  · refine ⟨Or.inr rfl, ?_, lexLE_refl _⟩
    rcases h3 with h3 | h3
    · exact Or.inl h3
    · push_neg at h2
      rcases lt_or_eq_of_le h2 with hlt | heq
      · exact Or.inl hlt
      · exact Or.inr ⟨heq, le_of_lt h3⟩
  · push_neg at h2 h3
    exact ⟨Or.inl rfl, lexLE_refl p, Or.inr ⟨le_antisymm h3.1 h2, h3.2⟩⟩

theorem cpmFold_spec (i_keys : List ℕ) (i_vals : List ℚ) (f : ℕ → ℚ) :
    ∀ (row : List ℕ) (a : ℕ × ℚ), a.2 = f a.1 →
      (∀ j ∈ row, i_vals.getD j 0 = f (i_keys.getD j 0)) →
      (row.foldl (cpmScan i_keys i_vals) a = a ∨
        ∃ j ∈ row, row.foldl (cpmScan i_keys i_vals) a
          = (i_keys.getD j 0, i_vals.getD j 0)) ∧
      lexLE a (row.foldl (cpmScan i_keys i_vals) a) ∧
      ∀ j ∈ row, lexLE (i_keys.getD j 0, i_vals.getD j 0)
        (row.foldl (cpmScan i_keys i_vals) a) := by
  intro row
  induction row with
  | nil =>
      intro a _ _
      exact ⟨Or.inl rfl, lexLE_refl a, by simp⟩
  | cons j rest ih =>
      intro a ha hrow
      have hkeyinj : i_keys.getD j 0 = a.1 →
          (i_keys.getD j 0, i_vals.getD j 0) = a := by
        intro he
        have hv : i_vals.getD j 0 = a.2 := by
          rw [hrow j (List.mem_cons_self j rest), he, ← ha]
        rw [he, hv]
      obtain ⟨hcase, hpa, hja⟩ := cpmScan_spec i_keys i_vals a j hkeyinj
      have ha2 : (cpmScan i_keys i_vals a j).2
          = f (cpmScan i_keys i_vals a j).1 := by
        rcases hcase with h | h
        · rw [h]; exact ha
        · rw [h]
          exact hrow j (List.mem_cons_self j rest)
      obtain ⟨ihcase, ihdom, ihrest⟩ := ih (cpmScan i_keys i_vals a j) ha2
        (fun u hu => hrow u (List.mem_cons_of_mem j hu))
      have hfold : (j :: rest).foldl (cpmScan i_keys i_vals) a
          = rest.foldl (cpmScan i_keys i_vals)
              (cpmScan i_keys i_vals a j) := rfl
      refine ⟨?_, ?_, ?_⟩
      · rw [hfold]
        rcases ihcase with h | ⟨u, hu, h⟩
        · rcases hcase with h2 | h2
          · exact Or.inl (by rw [h, h2])
          · exact Or.inr ⟨j, List.mem_cons_self j rest, by rw [h, h2]⟩
        · exact Or.inr ⟨u, List.mem_cons_of_mem j hu, h⟩
      · rw [hfold]
        exact lexLE_trans hpa ihdom
      · intro u hu
        rw [hfold]
        rcases List.mem_cons.mp hu with he | hm
        · rw [he]
          exact lexLE_trans hja ihdom
        · exact ihrest u hm

theorem cpmIter_succ (n : ℕ) (Ap Aj : List ℕ) :
    ∀ (t : ℕ) (kv : List ℕ × List ℚ),
      cpmIter n Ap Aj (t + 1) kv
        = csr_propagate_max n Ap Aj (cpmIter n Ap Aj t kv).1
            (cpmIter n Ap Aj t kv).2 := by
  intro t
  induction t with
  | zero => intro kv; rfl
  | succ t2 ih =>
      intro kv
      show cpmIter n Ap Aj (t2 + 1)
        (csr_propagate_max n Ap Aj kv.1 kv.2) = _
      rw [ih (csr_propagate_max n Ap Aj kv.1 kv.2)]
      rfl

theorem csr_propagate_max_getD (n : ℕ) (Ap Aj : List ℕ) (K : List ℕ)
    (V : List ℚ) {p : ℕ} (hp : p < n) :
    (csr_propagate_max n Ap Aj K V).1.getD p 0 = (cpmRow Ap Aj K V p).1 ∧
    (csr_propagate_max n Ap Aj K V).2.getD p 0 = (cpmRow Ap Aj K V p).2 :=
  ⟨getD_map_range (fun i => (cpmRow Ap Aj K V i).1) n p 0 hp,
   getD_map_range (fun i => (cpmRow Ap Aj K V i).2) n p 0 hp⟩

/-- After `t` propagation steps from a state whose pair at every
position `p < n` is `(p, f p)`, the pair at `p` is the initial pair of
some vertex within distance `t` of `p`, and it dominates (in the
value-then-key order) the initial pair of every vertex within
distance `t` of `p`. -/
theorem cpmIter_spec (n : ℕ) (Ap Aj : List ℕ)
    (hAj : ∀ i < n, ∀ j ∈ csrRow Ap Aj i, j < n) (f : ℕ → ℚ) :
    ∀ (t : ℕ) (kv : List ℕ × List ℚ),
      kv.1.length = n → kv.2.length = n →
      (∀ p < n, kv.1.getD p 0 = p) → (∀ p < n, kv.2.getD p 0 = f p) →
      (cpmIter n Ap Aj t kv).1.length = n ∧
      (cpmIter n Ap Aj t kv).2.length = n ∧
      (∀ p < n, ∃ σ, pathConn Ap Aj p σ t ∧
        ((cpmIter n Ap Aj t kv).1.getD p 0,
          (cpmIter n Ap Aj t kv).2.getD p 0) = (σ, f σ) ∧
        (∀ τ, pathConn Ap Aj p τ t → lexLE (τ, f τ) (σ, f σ))) := by
  intro t
  induction t with
  | zero =>
      intro kv h1 h2 hk hv
      refine ⟨h1, h2, ?_⟩
      intro p hp
      refine ⟨p, pathConn_refl Ap Aj p 0, ?_, ?_⟩
      · show (kv.1.getD p 0, kv.2.getD p 0) = (p, f p)
        rw [hk p hp, hv p hp]
      intro τ hτ
      obtain ⟨q, hlen, hch, hlast⟩ := hτ
      have hq : q = [] := List.eq_nil_of_length_eq_zero
        (Nat.le_zero.mp hlen)
      subst hq
      rw [List.getLast?_singleton] at hlast
      rw [← Option.some.inj hlast]
      exact lexLE_refl _
  | succ t2 ihh =>
      intro kv h1 h2 hk hv
      obtain ⟨ih1, ih2, ihp⟩ := ihh kv h1 h2 hk hv
      rw [cpmIter_succ n Ap Aj t2 kv]
      set K := (cpmIter n Ap Aj t2 kv).1 with hKdef
      set V := (cpmIter n Ap Aj t2 kv).2 with hVdef
      refine ⟨by simp [csr_propagate_max], by simp [csr_propagate_max], ?_⟩
      intro p hp
      obtain ⟨ho1, ho2⟩ := csr_propagate_max_getD n Ap Aj K V hp
      have hpair : ((csr_propagate_max n Ap Aj K V).1.getD p 0,
          (csr_propagate_max n Ap Aj K V).2.getD p 0)
          = cpmRow Ap Aj K V p := by
        rw [ho1, ho2]
      obtain ⟨σp, hσpp, hσp_pair, hσp_dom⟩ := ihp p hp
      have hKp : K.getD p 0 = σp := congrArg Prod.fst hσp_pair
      have hVp : V.getD p 0 = f σp := congrArg Prod.snd hσp_pair
      have ha : (K.getD p 0, V.getD p 0).2 = f (K.getD p 0, V.getD p 0).1 := by
        dsimp only
        rw [hKp, hVp]
      have hrow : ∀ j ∈ csrRow Ap Aj p, V.getD j 0 = f (K.getD j 0) := by
        intro j hj
        obtain ⟨σj, _, hσj_pair, _⟩ := ihp j (hAj p hp j hj)
        rw [show K.getD j 0 = σj from congrArg Prod.fst hσj_pair,
          show V.getD j 0 = f σj from congrArg Prod.snd hσj_pair]
      have hrowspec := cpmFold_spec K V f (csrRow Ap Aj p)
        (K.getD p 0, V.getD p 0) ha hrow
      rcases hrowspec.1 with hc | ⟨j, hj, hc⟩
      · refine ⟨σp, pathConn_mono (Nat.le_succ t2) hσpp, ?_, ?_⟩
        · rw [hpair]
          show (csrRow Ap Aj p).foldl (cpmScan K V)
            (K.getD p 0, V.getD p 0) = (σp, f σp)
          rw [hc, hKp, hVp]
        · intro τ hτ
          rcases pathConn_cases hτ with rfl | ⟨j, hj, hτ2⟩
          · exact hσp_dom τ (pathConn_refl Ap Aj τ t2)
          · obtain ⟨σj, hσjp, hσj_pair, hσj_dom⟩ := ihp j (hAj p hp j hj)
            have h3 : lexLE (τ, f τ) (K.getD j 0, V.getD j 0) := by
              rw [hσj_pair]
              exact hσj_dom τ hτ2
            have h2 : lexLE (K.getD j 0, V.getD j 0) (σp, f σp) := by
              have hd := hrowspec.2.2 j hj
              rw [show (csrRow Ap Aj p).foldl (cpmScan K V)
                (K.getD p 0, V.getD p 0) = (σp, f σp) from
                by rw [hc, hKp, hVp]] at hd
              exact hd
            exact lexLE_trans h3 h2
      · obtain ⟨σj, hσjp, hσj_pair, hσj_dom⟩ := ihp j (hAj p hp j hj)
        have hfold_eq : (csrRow Ap Aj p).foldl (cpmScan K V)
            (K.getD p 0, V.getD p 0) = (σj, f σj) := by
          rw [hc, hσj_pair]
        refine ⟨σj, pathConn_step hj hσjp, ?_, ?_⟩
        · rw [hpair]
          exact hfold_eq
        · intro τ hτ
          rcases pathConn_cases hτ with rfl | ⟨j2, hj2, hτ2⟩
          · have hd1 := hσp_dom τ (pathConn_refl Ap Aj τ t2)
            have hd2 : lexLE (σp, f σp) (σj, f σj) := by
              have hd := hrowspec.2.1
              rw [hfold_eq, hKp, hVp] at hd
              exact hd
            exact lexLE_trans hd1 hd2
          · obtain ⟨σj2, hσj2p, hσj2_pair, hσj2_dom⟩ :=
              ihp j2 (hAj p hp j2 hj2)
            have h3 : lexLE (τ, f τ) (K.getD j2 0, V.getD j2 0) := by
              rw [hσj2_pair]
              exact hσj2_dom τ hτ2
            have h2 : lexLE (K.getD j2 0, V.getD j2 0) (σj, f σj) := by
              have hd := hrowspec.2.2 j2 hj2
              rw [hfold_eq] at hd
              exact hd
            exact lexLE_trans h3 h2

/-- Invariant of the outer MIS-k loop: array lengths, keys reset to
the indices, `x` is 0/1-valued, everything within distance `k` of a
promoted vertex is inactive, and promoted vertices are pairwise more
than `k` apart. -/
def MISKInv (n k : ℕ) (Ap Aj : List ℕ) (s : MISKState) : Prop :=
  s.x.length = n ∧ s.active.length = n ∧ s.keys = List.range n ∧
  s.vals.length = n ∧
  (∀ i < n, s.x.getD i 0 = 0 ∨ s.x.getD i 0 = 1) ∧
  (∀ u < n, s.x.getD u 0 = 1 → ∀ p < n, pathConn Ap Aj u p k →
    s.active.getD p false = false) ∧
  (∀ u < n, ∀ v < n, u ≠ v → s.x.getD u 0 = 1 → s.x.getD v 0 = 1 →
    ¬ pathConn Ap Aj u v k)

theorem miskRound_inv (n k : ℕ) (Ap Aj : List ℕ) (y : List ℚ)
    (hAj : ∀ i < n, ∀ j ∈ csrRow Ap Aj i, j < n)
    (hsym : ∀ i < n, ∀ j ∈ csrRow Ap Aj i, i ∈ csrRow Ap Aj j)
    (s : MISKState) (hinv : MISKInv n k Ap Aj s) :
    MISKInv n k Ap Aj (miskRound n k Ap Aj y s).1 := by
  obtain ⟨hxl, hal, hkeys, hvl, hx01, hdeact, hsep⟩ := hinv
  obtain ⟨hK1l, hV1l, hP1⟩ := cpmIter_spec n Ap Aj hAj
    (fun i => s.vals.getD i 0) k (s.keys, s.vals)
    (by rw [hkeys]; exact List.length_range n) hvl
    (fun i hi => by rw [hkeys]; exact getD_range n i hi)
    (fun i hi => rfl)
  have hx1get : ∀ i, i < n → (miskX1 n k Ap Aj s).getD i 0
      = if (cpmIter n Ap Aj k (s.keys, s.vals)).1.getD i 0 = i ∧
          s.active.getD i false = true then (1 : ℤ)
        else s.x.getD i 0 :=
    fun i hi => getD_map_range _ n i 0 hi
  have hx1_01 : ∀ i < n, (miskX1 n k Ap Aj s).getD i 0 = 0 ∨
      (miskX1 n k Ap Aj s).getD i 0 = 1 := by
    intro i hi
    rw [hx1get i hi]
    split_ifs with h
    · exact Or.inr rfl
    · exact hx01 i hi
  have hnewsep : ∀ u < n, ∀ v < n, u ≠ v →
      (miskX1 n k Ap Aj s).getD u 0 = 1 →
      (miskX1 n k Ap Aj s).getD v 0 = 1 → ¬ pathConn Ap Aj u v k := by
    intro u hu v hv huv hxu hxv hpc
    rw [hx1get u hu] at hxu
    rw [hx1get v hv] at hxv
    by_cases hcu : (cpmIter n Ap Aj k (s.keys, s.vals)).1.getD u 0 = u ∧
        s.active.getD u false = true
    · by_cases hcv : (cpmIter n Ap Aj k (s.keys, s.vals)).1.getD v 0 = v ∧
          s.active.getD v false = true
      · obtain ⟨σu, hσup, hσu_pair, hσu_dom⟩ := hP1 u hu
        obtain ⟨σv, hσvp, hσv_pair, hσv_dom⟩ := hP1 v hv
        have hKu : (cpmIter n Ap Aj k (s.keys, s.vals)).1.getD u 0 = σu :=
          congrArg Prod.fst hσu_pair
        have hKv : (cpmIter n Ap Aj k (s.keys, s.vals)).1.getD v 0 = σv :=
          congrArg Prod.fst hσv_pair
        have hσu_eq : σu = u := by rw [← hKu, hcu.1]
        have hσv_eq : σv = v := by rw [← hKv, hcv.1]
        rw [hσu_eq] at hσu_dom
        rw [hσv_eq] at hσv_dom
        have h1 := hσu_dom v hpc
        have h2 := hσv_dom u (pathConn_symm hAj hsym hu hpc)
        exact huv (congrArg Prod.fst (lexLE_antisymm h2 h1))
      · rw [if_neg hcv] at hxv
        have hdv := hdeact v hv hxv u hu (pathConn_symm hAj hsym hu hpc)
        rw [hcu.2] at hdv
        exact Bool.noConfusion hdv
    · rw [if_neg hcu] at hxu
      by_cases hcv : (cpmIter n Ap Aj k (s.keys, s.vals)).1.getD v 0 = v ∧
          s.active.getD v false = true
      · have hdu := hdeact u hu hxu v hv hpc
        rw [hcv.2] at hdu
        exact Bool.noConfusion hdu
      · rw [if_neg hcv] at hxv
        exact hsep u hu v hv huv hxu hxv hpc
  obtain ⟨hK3l, hV3l, hP3⟩ := cpmIter_spec n Ap Aj hAj
    (fun i => ((miskX1 n k Ap Aj s).getD i 0 : ℚ)) k
    (List.range n, (List.range n).map
      (fun i2 => ((miskX1 n k Ap Aj s).getD i2 0 : ℚ)))
    (List.length_range n) (by simp)
    (fun i hi => getD_range n i hi)
    (fun i hi => getD_map_range _ n i 0 hi)
  have hVeq : ∀ q : ℕ, (miskV3 n k Ap Aj s).getD q 0
      = (cpmIter n Ap Aj k (List.range n, (List.range n).map
          (fun i2 => ((miskX1 n k Ap Aj s).getD i2 0 : ℚ)))).2.getD q 0 :=
    fun q => rfl
  have hV3 : ∀ p < n, ((miskV3 n k Ap Aj s).getD p 0 = 1 ↔
      ∃ w < n, pathConn Ap Aj p w k ∧
        (miskX1 n k Ap Aj s).getD w 0 = 1) := by
    intro p hp
    obtain ⟨σ, hσp, hσ_pair, hσ_dom⟩ := hP3 p hp
    have hσn : σ < n := pathConn_lt hAj hp hσp
    have hVσ : (cpmIter n Ap Aj k (List.range n, (List.range n).map
        (fun i2 => ((miskX1 n k Ap Aj s).getD i2 0 : ℚ)))).2.getD p 0
        = ((miskX1 n k Ap Aj s).getD σ 0 : ℚ) :=
      congrArg Prod.snd hσ_pair
    constructor
    · intro h1
      rw [hVeq p, hVσ] at h1
      exact ⟨σ, hσn, hσp, by exact_mod_cast h1⟩
    · rintro ⟨w, hwn, hwp, hwx⟩
      have hdom : lexLE (w, ((miskX1 n k Ap Aj s).getD w 0 : ℚ))
          (σ, ((miskX1 n k Ap Aj s).getD σ 0 : ℚ)) := hσ_dom w hwp
      rw [hwx] at hdom
      rw [hVeq p, hVσ]
      rcases hx1_01 σ hσn with h01 | h01
      · exfalso
        rw [h01] at hdom
        rcases hdom with hlt | ⟨heq, _⟩
        · norm_num at hlt
        · norm_num at heq
      · rw [h01]
        norm_num
  refine ⟨?_, ?_, rfl, ?_, ?_, ?_, ?_⟩
  · show (miskX1 n k Ap Aj s).length = n
    simp [miskX1]
  · show ((List.range n).map (fun i =>
      if (miskV3 n k Ap Aj s).getD i 0 = 1 then false
      else s.active.getD i false)).length = n
    simp
  · show ((List.range n).map (fun i =>
      if (miskV3 n k Ap Aj s).getD i 0 = 1 then (-1 : ℚ)
      else y.getD i 0)).length = n
    simp
  · intro i hi
    exact hx1_01 i hi
  · intro u hu hxu p hp hpc
    have hxu2 : (miskX1 n k Ap Aj s).getD u 0 = 1 := hxu
    show ((List.range n).map (fun i =>
      if (miskV3 n k Ap Aj s).getD i 0 = 1 then false
      else s.active.getD i false)).getD p false = false
    rw [getD_map_range _ n p false hp,
      (hV3 p hp).mpr ⟨u, hu, pathConn_symm hAj hsym hu hpc, hxu2⟩]
    simp
  · intro u hu v hv huv hxu hxv
    exact hnewsep u hu v hv huv hxu hxv

theorem miskLoop_inv (n k : ℕ) (Ap Aj : List ℕ) (y : List ℚ)
    (hAj : ∀ i < n, ∀ j ∈ csrRow Ap Aj i, j < n)
    (hsym : ∀ i < n, ∀ j ∈ csrRow Ap Aj i, i ∈ csrRow Ap Aj j) :
    ∀ (fuel : ℕ) (s : MISKState), MISKInv n k Ap Aj s →
      MISKInv n k Ap Aj (miskLoop n k Ap Aj y fuel s) := by
  intro fuel
  induction fuel with
  | zero =>
      intro s h
      exact h
  | succ f ih =>
      intro s h
      rw [show miskLoop n k Ap Aj y (f + 1) s
        = if (miskRound n k Ap Aj y s).2 = true then
            miskLoop n k Ap Aj y f (miskRound n k Ap Aj y s).1
          else (miskRound n k Ap Aj y s).1 from rfl]
      split_ifs
      · exact ih _ (miskRound_inv n k Ap Aj y hAj hsym s h)
      · exact miskRound_inv n k Ap Aj y hAj hsym s h

theorem misk_init_inv (n k : ℕ) (Ap Aj : List ℕ) (y : List ℚ) :
    MISKInv n k Ap Aj ⟨List.replicate n 0, List.replicate n true,
      List.range n, (List.range n).map (fun i => y.getD i 0)⟩ := by
  refine ⟨by simp, by simp, rfl, by simp, ?_, ?_, ?_⟩
  · intro i hi
    exact Or.inl (getD_replicate (0 : ℤ) 0 hi)
  · intro u hu hxu
    have hxu2 : (List.replicate n (0 : ℤ)).getD u 0 = 1 := hxu
    rw [getD_replicate (0 : ℤ) 0 hu] at hxu2
    exact absurd hxu2 (by decide)
  · intro u hu v hv huv hxu hxv
    have hxu2 : (List.replicate n (0 : ℤ)).getD u 0 = 1 := hxu
    rw [getD_replicate (0 : ℤ) 0 hu] at hxu2
    exact absurd hxu2 (by decide)

/-- C9: for every symmetric bounded graph and any fuel for the
unbounded (`max_iters = -1`) outer loop, any two distinct vertices
promoted by `maximal_independent_set_k_parallel` (`x = 1`) are at
unweighted graph distance strictly greater than `k`: no walk of at
most `k` edges joins them. -/
theorem C9_misk_separation (n k : ℕ) (Ap Aj : List ℕ) (y : List ℚ)
    (fuel : ℕ)
    (hAj : ∀ i < n, ∀ j ∈ csrRow Ap Aj i, j < n)
    (hsym : ∀ i < n, ∀ j ∈ csrRow Ap Aj i, i ∈ csrRow Ap Aj j)
    (hk : 1 ≤ k) (u v : ℕ) (hu : u < n) (hv : v < n) (huv : u ≠ v)
    (hxu : (maximal_independent_set_k_parallel n Ap Aj k y fuel).x.getD
      u 0 = 1)
    (hxv : (maximal_independent_set_k_parallel n Ap Aj k y fuel).x.getD
      v 0 = 1) :
    ¬ pathConn Ap Aj u v k := by
  have hfin := miskLoop_inv n k Ap Aj y hAj hsym fuel
    ⟨List.replicate n 0, List.replicate n true, List.range n,
      (List.range n).map (fun i => y.getD i 0)⟩
    (misk_init_inv n k Ap Aj y)
  exact hfin.2.2.2.2.2.2 u hu v hv huv hxu hxv

/-- Witness for C9 on the edgeless two-vertex graph with `k = 1`:
both vertices are promoted and they are not joined by any walk of at
most one edge. -/
theorem C9_misk_separation_witness :
    (maximal_independent_set_k_parallel 2 [0, 0, 0] [] 1 [1, 2]
      2).x.getD 0 0 = 1 ∧
    (maximal_independent_set_k_parallel 2 [0, 0, 0] [] 1 [1, 2]
      2).x.getD 1 0 = 1 ∧
    ¬ pathConn [0, 0, 0] [] 0 1 1 :=
  ⟨by decide, by decide,
    C9_misk_separation 2 1 [0, 0, 0] [] [1, 2] 2 (by decide) (by decide)
      (by decide) 0 1 (by decide) (by decide) (by decide) (by decide)
      (by decide)⟩

end PyamgGraph

